import Mathlib

/-!
Verification of the `sqlf` query builder (vendored `keegancsmith/sqlf` with
explicit argument-index support).

The Go source is shallowly embedded here:
* templates and built query text are `List Char` (Go strings are byte
  strings; all behavior modelled here is byte-per-rune faithful for the
  ASCII syntax the scanner recognizes, and Go's `fmt` decodes one rune per
  verb, which coincides with `Char` granularity on valid UTF-8);
* `interface{}` arguments are a closed variant `Arg` of leaf values and
  `*Query` pointers; pointer identity is modelled by an index into an
  explicit heap `List Query`, so two structurally equal queries at distinct
  heap slots are distinct pointers;
* Go's `panic` in `sprintfExplicit` is modelled by `Except`: composition
  either aborts with the panic message or returns the built `Query`;
* the Go standard library pieces the source calls (`fmt.Sprintf` over
  `sqlf.ignoreFormat` arguments, `strings.ReplaceAll(format, "%%", "%%%%")`,
  `strings.Join`, `strconv.Atoi` on the scanned digit run) are modelled
  faithfully; `goSprintf` below transcribes `fmt`'s `doPrintf` specialized
  to the only argument type this library ever passes it, `ignoreFormat`,
  whose `Format` method writes its wrapped string and ignores verb, flags,
  width and precision.

Loops that walk a string by position are written with an explicit fuel
parameter (structural recursion, so concrete runs evaluate by `decide`);
the fuel is the string length plus one, which bounds the iteration count
since every iteration advances the position by at least one character.
-/

namespace Sqlf

/-- A leaf (non-query) argument value. The library treats leaf arguments as
opaque; string and integer leaves cover every value the claims mention. -/
inductive Leaf where
  | str : String → Leaf
  | int : Int → Leaf
deriving DecidableEq, Repr

/-- One `interface{}` argument: a leaf value or a `*Query` pointer,
the latter modelled as an index into a heap of constructed queries. -/
inductive Arg where
  | leaf : Leaf → Arg
  | qptr : Nat → Arg
deriving DecidableEq, Repr

/-- `type Query struct { fmt string; args []interface{}; argIndices []int }`.
`argIndices = none` models the nil slice (legacy 1:1 mapping). -/
structure Query where
  fmt : List Char
  args : List Arg
  argIndices : Option (List Nat)
deriving DecidableEq, Repr

/-- The zero `Query`, used as the (never hit in verified runs) default when
dereferencing a heap pointer. -/
def nilQuery : Query := ⟨[], [], none⟩

/-- A heap of constructed `*Query` values; `Arg.qptr p` points at slot `p`. -/
abbrev Heap := List Query

/-- Dereference a query pointer. -/
def deref (heap : Heap) (p : Nat) : Query := List.getD heap p nilQuery

/-- `type directive struct` from the source: one parsed fmt directive.
`stop` is the Go field `end` (a Lean keyword). -/
structure Directive where
  start : Nat
  stop : Nat
  hasIndex : Bool
  index : Nat
  isLiteral : Bool
deriving DecidableEq, Repr

/-- Number of leading characters of `l` satisfying `p` (the inner
`for ... { i++ }` skip loops of the scanner). -/
def countWhile (p : Char → Bool) : List Char → Nat
  | [] => 0
  | c :: cs => if p c then countWhile p cs + 1 else 0

/-- Position after skipping the run of decimal digits starting at `i`
(`for j < len(format) && format[j] >= '0' && format[j] <= '9' { j++ }`). -/
def skipDigits (format : List Char) (i : Nat) : Nat :=
  i + countWhile Char.isDigit (format.drop i)

/-- `func skipOptionalIndex(format string, i int) int`. -/
def skipOptionalIndex (format : List Char) (i : Nat) : Nat :=
  if format.get? i = some '[' then
    let j := skipDigits format (i + 1)
    if format.get? j = some ']' ∧ j > i + 1 then j + 1 else i
  else i

/-- Scanner flag characters: `'#' '0' '+' '-' ' '` and `'\''`. -/
def isScanFlag (c : Char) : Bool :=
  c = '#' ∨ c = '0' ∨ c = '+' ∨ c = '-' ∨ c = ' ' ∨ c = '\''

/-- Decimal value of a digit run (`strconv.Atoi` on the scanned digits,
whose error return the source discards; the runs the claims exercise are
far below the overflow range, so the exact value is the faithful model). -/
def digitsVal : List Char → Nat → Nat
  | [], acc => acc
  | c :: cs, acc => digitsVal cs (acc * 10 + (c.toNat - 48))

/-- The index/flags/width/precision section of one directive, scanned from
`i1` (the position just after the `%`).  Returns `(hasIndex, index, i5)`
where `i5` is the position of the verb. -/
def scanVerb (format : List Char) (i1 : Nat) : Bool × Nat × Nat :=
  -- optional explicit argument index [n]
  let idxState : Bool × Nat × Nat :=
    if format.get? i1 = some '[' then
      let j := skipDigits format (i1 + 1)
      if format.get? j = some ']' ∧ j > i1 + 1 then
        (true, digitsVal ((format.drop (i1 + 1)).take (j - (i1 + 1))) 0, j + 1)
      else (false, 0, i1)
    else (false, 0, i1)
  -- skip flags
  let i3 := idxState.2.2 + countWhile isScanFlag (format.drop idxState.2.2)
  -- width: * (with optional [n]) or digits
  let i4 :=
    if format.get? i3 = some '*' then skipOptionalIndex format (i3 + 1)
    else skipDigits format i3
  -- precision: . then * (with optional [n]) or digits
  let i5 :=
    if format.get? i4 = some '.' then
      if format.get? (i4 + 1) = some '*' then skipOptionalIndex format (i4 + 2)
      else skipDigits format (i4 + 1)
    else i4
  (idxState.1, idxState.2.1, i5)

/-- The body of `parseDirectives`' scanning loop, from position `i`.
`fuel` only bounds the iteration count: every recursive call strictly
increases `i`, so `format.length + 1 - i ≤ fuel` keeps it from running out. -/
def parseLoop (format : List Char) : Nat → Nat → List Directive
  | 0, _ => []
  | fuel + 1, i =>
    match format.get? i with
    | none => []
    | some c =>
      if c ≠ '%' then parseLoop format fuel (i + 1)
      else
        -- start := i; i++ (skip '%')
        if format.length ≤ i + 1 then []      -- `if i >= len(format) { break }`
        else if format.get? (i + 1) = some '%' then
          -- literal %%
          ⟨i, i + 2, false, 0, true⟩ :: parseLoop format fuel (i + 2)
        else
          -- the verb: a single byte
          if (scanVerb format (i + 1)).2.2 < format.length then
            ⟨i, (scanVerb format (i + 1)).2.2 + 1, (scanVerb format (i + 1)).1,
              (scanVerb format (i + 1)).2.1, false⟩
              :: parseLoop format fuel ((scanVerb format (i + 1)).2.2 + 1)
          else []

/-- `func parseDirectives(format string) []directive`. -/
def parseDirectives (format : List Char) : List Directive :=
  parseLoop format (format.length + 1) 0

/-! ### Model of `fmt.Sprintf` over `ignoreFormat` arguments

Everything the library ever passes to `fmt.Sprintf` is wrapped in
`ignoreFormat`, whose `Format` method writes the wrapped string and ignores
the verb and all flags.  `goSprintf` below transcribes `fmt`'s `doPrintf`
loop (and its helpers `parsenum`, `parseArgNumber`, `argNumber`,
`intFromArg`) specialized to that argument type: formatting state (flags,
width, precision values) influences nothing once `Format` is called, so
only the control flow and the error strings (`%!(NOVERB)`, `%!v(MISSING)`,
`%!v(BADINDEX)`, `%!(BADWIDTH)`, `%!(BADPREC)`, `%!(EXTRA ...)`) remain. -/

/-- `strings.Join`-style separator interleaving. -/
def intercalateChars (sep : List Char) : List (List Char) → List Char
  | [] => []
  | [x] => x
  | x :: xs => x ++ sep ++ intercalateChars sep xs

/-- Flag characters of Go `fmt` (`'#' '0' '+' '-' ' '`; Go's formatter does
not treat the apostrophe as a flag, unlike this library's scanner). -/
def isGoFlag (c : Char) : Bool :=
  c = '#' ∨ c = '0' ∨ c = '+' ∨ c = '-' ∨ c = ' '

/-- `func parsenum(s string, start, end int)` on the suffix it scans:
returns `(num, isnum, consumed)`.  On the `tooLarge` bail-out Go returns
`newi = end`, i.e. the whole range counts as consumed. -/
def parsenumList : List Char → Nat → Bool → Nat → Nat × Bool × Nat
  | [], num, isnum, k => (num, isnum, k)
  | c :: cs, num, isnum, k =>
    if c.isDigit then
      if 1000000 < num then (0, false, k + (c :: cs).length)
      else parsenumList cs (num * 10 + (c.toNat - 48)) true (k + 1)
    else (num, isnum, k)

/-- `func parseArgNumber(format string)`: `format` starts at the `'['`.
Returns `(index, wid, ok)`; `index` is 1-based minus one, so `[0]` yields
`-1`. -/
def parseArgNumberList (l : List Char) : Int × Nat × Bool :=
  if l.length < 3 then (0, 1, false)
  else
    match (l.drop 1).findIdx? (· = ']') with
    | none => (0, 1, false)
    | some j =>
      let r := parsenumList ((l.drop 1).take j) 0 false 0
      if r.2.1 = true ∧ r.2.2 = j then ((r.1 : Int) - 1, j + 2, true)
      else (0, j + 2, false)

/-- Result of `pp.argNumber`: new argument cursor, remaining format,
`found` (an index was applied), and the updated `reordered` and
`goodArgNum` bits. -/
structure ArgNumR where
  argNum : Nat
  rest : List Char
  found : Bool
  reordered : Bool
  good : Bool
deriving Repr

/-- `func (p *pp) argNumber(argNum int, format string, i int, numArgs int)`. -/
def goArgNumber (argNum : Nat) (l : List Char) (numArgs : Nat)
    (reordered good : Bool) : ArgNumR :=
  if l.head? = some '[' then
    let r := parseArgNumberList l
    if r.2.2 = true ∧ 0 ≤ r.1 ∧ r.1 < (numArgs : Int) then
      ⟨r.1.toNat, l.drop r.2.1, true, true, good⟩
    else
      ⟨argNum, l.drop r.2.1, r.2.2, true, false⟩
  else ⟨argNum, l, false, reordered, good⟩

/-- `pp.printArg` on an `ignoreFormat` value: `Format` writes the wrapped
string for every verb except the two `printArg` intercepts first —
`%T` prints the dynamic type and `%p` rejects the non-pointer operand. -/
def printIgnoreFormat (verb : Char) (s : List Char) : List Char :=
  if verb = 'T' then "sqlf.ignoreFormat".toList
  else if verb = 'p' then "%!p(sqlf.ignoreFormat=\x7b".toList ++ s ++ "\x7d)".toList
  else s

/-- The trailing `%!(EXTRA type=value, ...)` note `doPrintf` appends when
arguments remain unconsumed and no explicit index reordered them. -/
def goExtra (args : List (List Char)) (argNum : Nat) (reordered : Bool) : List Char :=
  if reordered = false ∧ argNum < args.length then
    "%!(EXTRA ".toList
      ++ intercalateChars ", ".toList
           ((args.drop argNum).map (fun s => "sqlf.ignoreFormat=".toList ++ s))
      ++ [')']
  else []

/-- Per-verb formatter state of `doPrintf`'s slow path: output emitted so
far for this verb, remaining format, argument cursor, `afterIndex`,
`reordered`, `goodArgNum`. -/
structure PP where
  out : List Char
  rest : List Char
  argNum : Nat
  afterIndex : Bool
  reordered : Bool
  good : Bool
deriving Repr

/-- Result of processing one verb on the slow path; `stop` is Go's
`break` out of the format loop on a missing verb. -/
structure SlowR where
  out : List Char
  rest : List Char
  argNum : Nat
  reordered : Bool
  stop : Bool
deriving Repr

/-- The slow path of `doPrintf` for one verb: `l` starts just after the
flags.  Transcribes the argNumber/width/precision/argNumber/verb sequence. -/
def goSlowStep (args : List (List Char)) (l : List Char) (argNum0 : Nat)
    (reordered0 : Bool) : SlowR :=
  let numArgs := args.length
  -- explicit argument index before the width
  let a1 := goArgNumber argNum0 l numArgs reordered0 true
  let st1 : PP := ⟨[], a1.rest, a1.argNum, a1.found, a1.reordered, a1.good⟩
  -- width: `*` consumes an argument (never an int here, hence BADWIDTH)
  let st2 : PP :=
    if st1.rest.head? = some '*' then
      let argNum' := if st1.argNum < numArgs then st1.argNum + 1 else st1.argNum
      { st1 with out := st1.out ++ "%!(BADWIDTH)".toList, rest := st1.rest.tail,
                 argNum := argNum', afterIndex := false }
    else
      let r := parsenumList st1.rest 0 false 0
      { st1 with rest := st1.rest.drop r.2.2,
                 good := if st1.afterIndex ∧ r.2.1 = true then false else st1.good }
  -- precision: requires a character after the '.'
  let st3 : PP :=
    if 2 ≤ st2.rest.length ∧ st2.rest.head? = some '.' then
      let stp : PP := { st2 with rest := st2.rest.tail,
                                 good := if st2.afterIndex then false else st2.good }
      let a2 := goArgNumber stp.argNum stp.rest numArgs stp.reordered stp.good
      let stq : PP := ⟨stp.out, a2.rest, a2.argNum, a2.found, a2.reordered, a2.good⟩
      if stq.rest.head? = some '*' then
        let argNum' := if stq.argNum < numArgs then stq.argNum + 1 else stq.argNum
        { stq with out := stq.out ++ "%!(BADPREC)".toList, rest := stq.rest.tail,
                   argNum := argNum', afterIndex := false }
      else
        let r := parsenumList stq.rest 0 false 0
        { stq with rest := stq.rest.drop r.2.2 }
    else st2
  -- explicit argument index immediately before the verb
  let st4 : PP :=
    if st3.afterIndex then st3
    else
      let a3 := goArgNumber st3.argNum st3.rest numArgs st3.reordered st3.good
      ⟨st3.out, a3.rest, a3.argNum, a3.found, a3.reordered, a3.good⟩
  -- the verb
  match st4.rest with
  | [] => ⟨st4.out ++ "%!(NOVERB)".toList, [], st4.argNum, st4.reordered, true⟩
  | verb :: r =>
    if verb = '%' then ⟨st4.out ++ ['%'], r, st4.argNum, st4.reordered, false⟩
    else if st4.good = false then
      ⟨st4.out ++ "%!".toList ++ [verb] ++ "(BADINDEX)".toList, r,
       st4.argNum, st4.reordered, false⟩
    else if numArgs ≤ st4.argNum then
      ⟨st4.out ++ "%!".toList ++ [verb] ++ "(MISSING)".toList, r,
       st4.argNum, st4.reordered, false⟩
    else
      ⟨st4.out ++ printIgnoreFormat verb (args.getD st4.argNum []), r,
       st4.argNum + 1, st4.reordered, false⟩

/-- `doPrintf`'s format loop.  Each iteration copies the literal run, then
either takes the fast path (lower-case verb right after the flags with an
argument available) or the slow path; `fuel` only bounds iterations, each
of which consumes at least the `%` character. -/
def goLoop (args : List (List Char)) : Nat → List Char → Nat → Bool → List Char
  | 0, _, _, _ => []
  | fuel + 1, l, argNum, reordered =>
    let lit := l.takeWhile (· ≠ '%')
    match l.dropWhile (· ≠ '%') with
    | [] => lit ++ goExtra args argNum reordered
    | _ :: r0 =>
      let r1 := r0.dropWhile isGoFlag
      match r1 with
      | c :: r2 =>
        if ('a' ≤ c ∧ c ≤ 'z') ∧ argNum < args.length then
          lit ++ printIgnoreFormat c (args.getD argNum [])
              ++ goLoop args fuel r2 (argNum + 1) reordered
        else
          let s := goSlowStep args (c :: r2) argNum reordered
          if s.stop then lit ++ s.out ++ goExtra args s.argNum s.reordered
          else lit ++ s.out ++ goLoop args fuel s.rest s.argNum s.reordered
      | [] =>
        let s := goSlowStep args [] argNum reordered
        if s.stop then lit ++ s.out ++ goExtra args s.argNum s.reordered
        else lit ++ s.out ++ goLoop args fuel s.rest s.argNum s.reordered

/-- `fmt.Sprintf(format, a...)` with every element of `a` an
`ignoreFormat`-wrapped string. -/
def goSprintf (format : List Char) (args : List (List Char)) : List Char :=
  goLoop args (format.length + 1) format 0 false

/-! ### Composition: `Sprintf`, `sprintfExplicit`, rendering, `Join` -/

/-- Decimal rendering of the (always non-negative when reached) `%d`
arguments of the panic message. -/
def intChars (i : Int) : List Char :=
  if i < 0 then '-' :: (Nat.repr (-i).toNat).toList else (Nat.repr i.toNat).toList

/-- The `panic` message of `sprintfExplicit`:
`sqlf.Sprintf: argument index [%d] out of range; have %d args`. -/
def panicMsg (oneBased : Int) (numArgs : Nat) : List Char :=
  "sqlf.Sprintf: argument index [".toList ++ intChars oneBased
    ++ "] out of range; have ".toList ++ intChars numArgs ++ " args".toList

/-- `func needsExplicitPath(format string, args []interface{}) bool`. -/
def needsExplicitPath (format : List Char) (args : List Arg) (heap : Heap) : Bool :=
  args.any (fun a =>
    match a with
    | Arg.qptr p => (deref heap p).argIndices.isSome
    | Arg.leaf _ => false)
  || (parseDirectives format).any (·.hasIndex)

/-- `type nestedInfo struct { offset int; fmt string; argIndices []int }`. -/
structure NestedInfo where
  offset : Nat
  nfmt : List Char
  nargIndices : List Nat
deriving DecidableEq, Repr

/-- Association-list lookup, the read operation of the two Go maps in
`sprintfExplicit` (each key is inserted at most once, so first-match
lookup is the map semantics). -/
def alookup {α : Type} [DecidableEq α] {β : Type} (k : α) : List (α × β) → Option β
  | [] => none
  | (k', v) :: rest => if k' = k then some v else alookup k rest

/-- The mutable locals of `sprintfExplicit`'s directive loop. -/
structure ExpState where
  resultFmt : List Char
  argIndices : List Nat
  resultArgs : List Arg
  argToResultPos : List (Nat × Nat)
  nestedQueries : List (Nat × NestedInfo)
  lastEnd : Nat
  currentImplicitArg : Nat
deriving Repr

/-- The initial state of the loop. -/
def expInit : ExpState := ⟨[], [], [], [], [], 0, 0⟩

/-- The `argIndices` a nested query contributes: its own when present,
else the synthesized 1:1 list (`qArgIndices` in the source). -/
def normIndices (q : Query) : List Nat :=
  match q.argIndices with
  | some is => is
  | none => List.range q.args.length

/-- Lines 512–520 of the source, the resolved logical index of one
non-literal directive: `argIdx = d.index - 1` when an explicit index is
present, else the current implicit counter. -/
def dResolve (cur : Nat) (d : Directive) : Int :=
  if d.hasIndex then (d.index : Int) - 1 else (cur : Int)

/-- Lines 512–520 of the source, the implicit counter after one
non-literal directive: reset to `d.index` by an explicit index
(printf re-indexing), else incremented. -/
def dNext (cur : Nat) (d : Directive) : Nat :=
  if d.hasIndex then d.index else cur + 1

/-- One iteration of `sprintfExplicit`'s `for _, d := range directives`
loop.  `Except.error` is the `panic` on an out-of-range index. -/
def expStep (format : List Char) (args : List Arg) (heap : Heap)
    (st : ExpState) (d : Directive) : Except (List Char) ExpState :=
  -- resultFmt.WriteString(format[lastEnd:d.start]); lastEnd = d.end
  let st := { st with
    resultFmt := st.resultFmt ++ ((format.drop st.lastEnd).take (d.start - st.lastEnd)),
    lastEnd := d.stop }
  if d.isLiteral then
    .ok { st with resultFmt := st.resultFmt ++ ['%', '%'] }
  else
    -- determine which argument this verb refers to
    let argIdx : Int := dResolve st.currentImplicitArg d
    let st := { st with currentImplicitArg := dNext st.currentImplicitArg d }
    if argIdx < 0 ∨ (args.length : Int) ≤ argIdx then
      .error (panicMsg (argIdx + 1) args.length)
    else
      match args.getD argIdx.toNat (Arg.leaf (Leaf.str "")) with
      | Arg.qptr p =>
        let q := deref heap p
        match alookup p st.nestedQueries with
        | some info =>
          -- reuse: same format string, same arg indices shifted by offset
          .ok { st with
            resultFmt := st.resultFmt ++ info.nfmt,
            argIndices := st.argIndices ++ info.nargIndices.map (fun k => info.offset + k) }
        | none =>
          -- first time seeing this nested query
          let offset := st.resultArgs.length
          let qArgIndices := normIndices q
          .ok { st with
            resultFmt := st.resultFmt ++ q.fmt,
            argIndices := st.argIndices ++ qArgIndices.map (fun k => offset + k),
            resultArgs := st.resultArgs ++ q.args,
            nestedQueries := (p, ⟨offset, q.fmt, qArgIndices⟩) :: st.nestedQueries }
      | Arg.leaf v =>
        -- regular argument: add %s placeholder
        let st := { st with resultFmt := st.resultFmt ++ ['%', 's'] }
        match alookup argIdx.toNat st.argToResultPos with
        | some pos => .ok { st with argIndices := st.argIndices ++ [pos] }
        | none =>
          let pos := st.resultArgs.length
          .ok { st with
            argToResultPos := (argIdx.toNat, pos) :: st.argToResultPos,
            resultArgs := st.resultArgs ++ [Arg.leaf v],
            argIndices := st.argIndices ++ [pos] }

/-- The directive loop of `sprintfExplicit`. -/
def expRun (format : List Char) (args : List Arg) (heap : Heap) :
    ExpState → List Directive → Except (List Char) ExpState
  | st, [] => .ok st
  | st, d :: ds =>
    match expStep format args heap st d with
    | .error e => .error e
    | .ok st' => expRun format args heap st' ds

/-- `func sprintfExplicit(format string, args ...interface{}) *Query`.
The result carries `argIndices = none` exactly when the accumulated slice
stayed `nil` (no append happened). -/
def sprintfExplicit (format : List Char) (args : List Arg) (heap : Heap) :
    Except (List Char) Query :=
  match expRun format args heap expInit (parseDirectives format) with
  | .error e => .error e
  | .ok st =>
    .ok { fmt := st.resultFmt ++ format.drop st.lastEnd,
          args := st.resultArgs,
          argIndices := if st.argIndices.isEmpty then none else some st.argIndices }

/-- `strings.ReplaceAll(format, "%%", "%%%%")`: left-to-right,
non-overlapping. -/
def doublePercents : List Char → List Char
  | [] => []
  | [c] => [c]
  | c1 :: c2 :: rest =>
    if c1 = '%' ∧ c2 = '%' then '%' :: '%' :: '%' :: '%' :: doublePercents rest
    else c1 :: doublePercents (c2 :: rest)

/-- The per-argument flattening of the identity path: a nested query
contributes its own argument array, a leaf contributes itself. -/
def flattenArg (heap : Heap) : Arg → List Arg
  | Arg.qptr p => (deref heap p).args
  | Arg.leaf v => [Arg.leaf v]

/-- The per-argument format fragment of the identity path: a nested query
is spliced via `ignoreFormat{q.fmt}`, a leaf becomes `ignoreFormat{"%s"}`. -/
def identityFmtArg (heap : Heap) : Arg → List Char
  | Arg.qptr p => (deref heap p).fmt
  | Arg.leaf _ => ['%', 's']

/-- `func Sprintf(format string, args ...interface{}) *Query`. -/
def Sprintf (format : List Char) (args : List Arg) (heap : Heap) :
    Except (List Char) Query :=
  if needsExplicitPath format args heap then sprintfExplicit format args heap
  else
    -- original behavior for non-indexed format strings
    let f : List (List Char) := args.map (identityFmtArg heap)
    let a : List Arg := args.flatMap (flattenArg heap)
    .ok { fmt := goSprintf (doublePercents format) f, args := a, argIndices := none }

/-- A bind-variable dialect: slot number (0-based) to token.
Modelled from the spec: the `BindVar` interface lives outside the vendored
source; §6 specifies the two reference namers. -/
abbrev BindVar := Nat → List Char

/-- Modelled from the spec: the sequential numbered dialect
(`PostgresBindVar`), slot `i` (0-based) to `$i+1`. -/
def postgresBindVar : BindVar := fun i => '$' :: (Nat.repr (i + 1)).toList

/-- `func (q *Query) Query(binder BindVar) string`. -/
def Query.render (q : Query) (binder : BindVar) : List Char :=
  match q.argIndices with
  | some idxs => goSprintf q.fmt (idxs.map binder)
  | none => goSprintf q.fmt ((List.range q.args.length).map binder)

/-- `func (q *Query) Args() []interface{}`. -/
def Query.Args (q : Query) : List Arg := q.args

/-- The loop of `Join`: concatenated args and (offset-shifted) indices.
The index list is only attached to the result when some input has
explicit indices, exactly as in the source. -/
def joinLoop : List Query → Nat → List Arg × List Nat
  | [], _ => ([], [])
  | q :: qs, offset =>
    let idxs := (normIndices q).map (fun k => offset + k)
    let rest := joinLoop qs (offset + q.args.length)
    (q.args ++ rest.1, idxs ++ rest.2)

/-- `func Join(queries []*Query, sep string) *Query`. -/
def Join (queries : List Query) (sep : List Char) : Query :=
  let hasExplicitIndices := queries.any (·.argIndices.isSome)
  let r := joinLoop queries 0
  { fmt := intercalateChars (' ' :: (sep ++ [' '])) (queries.map (·.fmt)),
    args := r.1,
    argIndices :=
      if hasExplicitIndices then (if r.2.isEmpty then none else some r.2) else none }

/-! ### Analysis definitions

These definitions do not add behavior; they expose, for the statements of
the theorems, quantities the loop of `sprintfExplicit` computes on the fly:
the resolved logical index sequence (built from the very `dResolve`/`dNext`
step the loop uses), the first out-of-range resolved index, the per-directive
groups of appended `argIndices` entries, and the referenced leaf positions
and query pointers. -/

/-- Resolved logical indices of the non-literal directives, in source
order, starting from implicit counter `cur` (literals consume nothing). -/
def resolveFrom (cur : Nat) : List Directive → List Int
  | [] => []
  | d :: ds =>
    if d.isLiteral then resolveFrom cur ds
    else dResolve cur d :: resolveFrom (dNext cur d) ds

/-- Per-directive resolved indices (aligned with the directive list;
`none` for a literal). -/
def resolveAllFrom (cur : Nat) : List Directive → List (Option Int)
  | [] => []
  | d :: ds =>
    if d.isLiteral then none :: resolveAllFrom cur ds
    else some (dResolve cur d) :: resolveAllFrom (dNext cur d) ds

/-- Resolved indices of a whole format string. -/
def resolveOf (format : List Char) : List Int :=
  resolveFrom 0 (parseDirectives format)

/-- Per-directive resolved indices of a whole format string. -/
def resolveAllOf (format : List Char) : List (Option Int) :=
  resolveAllFrom 0 (parseDirectives format)

/-- The first resolved index outside `[0, numArgs)`, if any: the loop
panics exactly there. -/
def firstBad (numArgs : Nat) : List Int → Option Int
  | [] => none
  | r :: rs => if r < 0 ∨ (numArgs : Int) ≤ r then some r else firstBad numArgs rs

/-- Default argument used by `getD` on the argument list (never reached on
in-range indices). -/
def argDefault : Arg := Arg.leaf (Leaf.str "")

/-- The leaf argument positions a resolved index sequence references. -/
def leafRefs (args : List Arg) (rs : List Int) : List Nat :=
  rs.filterMap (fun r =>
    match args.getD r.toNat argDefault with
    | Arg.leaf _ => some r.toNat
    | Arg.qptr _ => none)

/-- The query pointers a resolved index sequence references. -/
def ptrRefs (args : List Arg) (rs : List Int) : List Nat :=
  rs.filterMap (fun r =>
    match args.getD r.toNat argDefault with
    | Arg.leaf _ => none
    | Arg.qptr p => some p)

/-- The same loop as `expRun`, additionally returning, per directive, the
group of entries that iteration appended to `argIndices` (a literal
appends none; a leaf directive appends one; a nested reference appends the
nested index block). -/
def expRunsAux (format : List Char) (args : List Arg) (heap : Heap) :
    ExpState → List Directive → Except (List Char) (List (List Nat))
  | _, [] => .ok []
  | st, d :: ds =>
    match expStep format args heap st d with
    | .error e => .error e
    | .ok st' =>
      match expRunsAux format args heap st' ds with
      | .error e => .error e
      | .ok runs => .ok ((st'.argIndices.drop st.argIndices.length) :: runs)

/-- Per-directive `argIndices` groups of a whole composition. -/
def sprintfRuns (format : List Char) (args : List Arg) (heap : Heap) :
    Except (List Char) (List (List Nat)) :=
  expRunsAux format args heap expInit (parseDirectives format)

/-- Well-formedness of one heap entry: its normalized index list is
in-bounds for its own argument array (true of every query this library
constructs). -/
def QueryWF (q : Query) : Prop :=
  ∀ i ∈ normIndices q, i < q.args.length

/-- Well-formedness of a heap of nested queries. -/
def HeapWF (heap : Heap) : Prop := ∀ q ∈ heap, QueryWF q

/-- Sum of the argument-array lengths of the queries before index `i`,
the running offset of `Join`. -/
def offsetBefore (qs : List Query) (i : Nat) : Nat :=
  ((qs.take i).map (fun q => q.args.length)).sum

/-- A template given by its inter-placeholder chunks: `segFormat [c₀,…,cₙ]`
is `c₀ ++ "%s" ++ c₁ ++ … ++ "%s" ++ cₙ`. -/
def segFormat : List (List Char) → List Char
  | [] => []
  | [c] => c
  | c :: cs => c ++ '%' :: 's' :: segFormat cs

/-- `interleave [c₀,…,cₙ] [v₁,…,vₙ] = c₀ ++ v₁ ++ c₁ ++ … ++ vₙ ++ cₙ`. -/
def interleave : List (List Char) → List (List Char) → List Char
  | [], _ => []
  | [c], _ => c
  | c :: cs, [] => c ++ interleave cs []
  | c :: cs, v :: vs => c ++ v ++ interleave cs vs

/-- How many `argIndices` entries the directive resolving to logical index
`r` appends: one for a leaf, the normalized index-block length for a
nested query. -/
def contrib (args : List Arg) (heap : Heap) (r : Int) : Nat :=
  match args.getD r.toNat argDefault with
  | Arg.leaf _ => 1
  | Arg.qptr p => (normIndices (deref heap p)).length

/-- The inter-directive text the loop copies before directive `d`. -/
def txt (format : List Char) (st : ExpState) (d : Directive) : List Char :=
  (format.drop st.lastEnd).take (d.start - st.lastEnd)

/-! ## Theorems -/

/-! ### Characterization of one loop iteration of `sprintfExplicit` -/

theorem alookup_cons {α β : Type} [DecidableEq α] (k k' : α) (v : β) (l : List (α × β)) :
    alookup k ((k', v) :: l) = if k' = k then some v else alookup k l := rfl

theorem expStep_lit (format : List Char) (args : List Arg) (heap : Heap)
    (st : ExpState) (d : Directive) (h : d.isLiteral = true) :
    expStep format args heap st d = .ok { st with
      resultFmt := st.resultFmt ++ txt format st d ++ ['%', '%'],
      lastEnd := d.stop } := by
  simp [expStep, h, txt]

theorem expStep_bad (format : List Char) (args : List Arg) (heap : Heap)
    (st : ExpState) (d : Directive) (h : d.isLiteral = false)
    (hbad : dResolve st.currentImplicitArg d < 0 ∨
      (args.length : Int) ≤ dResolve st.currentImplicitArg d) :
    expStep format args heap st d
      = .error (panicMsg (dResolve st.currentImplicitArg d + 1) args.length) := by
  simp [expStep, h, hbad]

theorem expStep_qptr_old (format : List Char) (args : List Arg) (heap : Heap)
    (st : ExpState) (d : Directive) (p : Nat) (info : NestedInfo)
    (h : d.isLiteral = false)
    (hok : ¬(dResolve st.currentImplicitArg d < 0 ∨
      (args.length : Int) ≤ dResolve st.currentImplicitArg d))
    (harg : args.getD (dResolve st.currentImplicitArg d).toNat argDefault = Arg.qptr p)
    (hl : alookup p st.nestedQueries = some info) :
    expStep format args heap st d = .ok { st with
      resultFmt := st.resultFmt ++ txt format st d ++ info.nfmt,
      argIndices := st.argIndices ++ info.nargIndices.map (fun k => info.offset + k),
      lastEnd := d.stop,
      currentImplicitArg := dNext st.currentImplicitArg d } := by
  have harg' : args[(dResolve st.currentImplicitArg d).toNat]?.getD (Arg.leaf (Leaf.str "")) = Arg.qptr p := by
    simpa [List.getD, argDefault] using harg
  simp [expStep, h, hok, harg', hl, txt]

theorem expStep_qptr_new (format : List Char) (args : List Arg) (heap : Heap)
    (st : ExpState) (d : Directive) (p : Nat)
    (h : d.isLiteral = false)
    (hok : ¬(dResolve st.currentImplicitArg d < 0 ∨
      (args.length : Int) ≤ dResolve st.currentImplicitArg d))
    (harg : args.getD (dResolve st.currentImplicitArg d).toNat argDefault = Arg.qptr p)
    (hl : alookup p st.nestedQueries = none) :
    expStep format args heap st d = .ok { st with
      resultFmt := st.resultFmt ++ txt format st d ++ (deref heap p).fmt,
      argIndices := st.argIndices
        ++ (normIndices (deref heap p)).map (fun k => st.resultArgs.length + k),
      resultArgs := st.resultArgs ++ (deref heap p).args,
      nestedQueries :=
        (p, ⟨st.resultArgs.length, (deref heap p).fmt, normIndices (deref heap p)⟩)
          :: st.nestedQueries,
      lastEnd := d.stop,
      currentImplicitArg := dNext st.currentImplicitArg d } := by
  have harg' : args[(dResolve st.currentImplicitArg d).toNat]?.getD (Arg.leaf (Leaf.str "")) = Arg.qptr p := by
    simpa [List.getD, argDefault] using harg
  simp [expStep, h, hok, harg', hl, txt]

theorem expStep_leaf_old (format : List Char) (args : List Arg) (heap : Heap)
    (st : ExpState) (d : Directive) (v : Leaf) (pos : Nat)
    (h : d.isLiteral = false)
    (hok : ¬(dResolve st.currentImplicitArg d < 0 ∨
      (args.length : Int) ≤ dResolve st.currentImplicitArg d))
    (harg : args.getD (dResolve st.currentImplicitArg d).toNat argDefault = Arg.leaf v)
    (hl : alookup (dResolve st.currentImplicitArg d).toNat st.argToResultPos = some pos) :
    expStep format args heap st d = .ok { st with
      resultFmt := st.resultFmt ++ txt format st d ++ ['%', 's'],
      argIndices := st.argIndices ++ [pos],
      lastEnd := d.stop,
      currentImplicitArg := dNext st.currentImplicitArg d } := by
  have harg' : args[(dResolve st.currentImplicitArg d).toNat]?.getD (Arg.leaf (Leaf.str "")) = Arg.leaf v := by
    simpa [List.getD, argDefault] using harg
  simp [expStep, h, hok, harg', hl, txt]

theorem expStep_leaf_new (format : List Char) (args : List Arg) (heap : Heap)
    (st : ExpState) (d : Directive) (v : Leaf)
    (h : d.isLiteral = false)
    (hok : ¬(dResolve st.currentImplicitArg d < 0 ∨
      (args.length : Int) ≤ dResolve st.currentImplicitArg d))
    (harg : args.getD (dResolve st.currentImplicitArg d).toNat argDefault = Arg.leaf v)
    (hl : alookup (dResolve st.currentImplicitArg d).toNat st.argToResultPos = none) :
    expStep format args heap st d = .ok { st with
      resultFmt := st.resultFmt ++ txt format st d ++ ['%', 's'],
      argIndices := st.argIndices ++ [st.resultArgs.length],
      resultArgs := st.resultArgs ++ [Arg.leaf v],
      argToResultPos :=
        ((dResolve st.currentImplicitArg d).toNat, st.resultArgs.length)
          :: st.argToResultPos,
      lastEnd := d.stop,
      currentImplicitArg := dNext st.currentImplicitArg d } := by
  have harg' : args[(dResolve st.currentImplicitArg d).toNat]?.getD (Arg.leaf (Leaf.str "")) = Arg.leaf v := by
    simpa [List.getD, argDefault] using harg
  simp [expStep, h, hok, harg', hl, txt]

/-! ### Association-list facts -/

theorem alookup_mem {α β : Type} [DecidableEq α] {k : α} {v : β} :
    ∀ {l : List (α × β)}, alookup k l = some v → (k, v) ∈ l := by
  intro l
  induction l with
  | nil => intro h; simp [alookup] at h
  | cons kv rest ih =>
    intro h
    rw [alookup_cons] at h
    by_cases hk : kv.1 = k
    · rw [if_pos hk] at h
      injection h with h2
      subst hk
      subst h2
      simp
    · rw [if_neg hk] at h
      exact List.mem_cons_of_mem _ (ih h)

theorem alookup_none_not_mem {α β : Type} [DecidableEq α] {k : α} :
    ∀ {l : List (α × β)}, alookup k l = none → k ∉ l.map Prod.fst := by
  intro l
  induction l with
  | nil => intro _; simp
  | cons kv rest ih =>
    intro h
    rw [alookup_cons] at h
    by_cases hk : kv.1 = k
    · rw [if_pos hk] at h; cases h
    · rw [if_neg hk] at h
      simp only [List.map_cons, List.mem_cons]
      rintro (rfl | hmem)
      · exact hk rfl
      · exact ih h hmem

/-! ### Index resolution and the out-of-range panic (claims C4, C5, C10) -/

theorem expRun_error_of_firstBad (format : List Char) (args : List Arg) (heap : Heap) :
    ∀ (ds : List Directive) (st : ExpState) (r : Int),
    firstBad args.length (resolveFrom st.currentImplicitArg ds) = some r →
    expRun format args heap st ds = .error (panicMsg (r + 1) args.length) := by
  intro ds
  induction ds with
  | nil => intro st r h; simp [resolveFrom, firstBad] at h
  | cons d ds ih =>
    intro st r h
    by_cases hd : d.isLiteral = true
    · rw [resolveFrom, if_pos hd] at h
      rw [expRun, expStep_lit format args heap st d hd]
      exact ih _ r h
    · have hd' : d.isLiteral = false := by simpa using hd
      rw [resolveFrom, if_neg (by simp [hd'])] at h
      by_cases hbad : dResolve st.currentImplicitArg d < 0 ∨
          (args.length : Int) ≤ dResolve st.currentImplicitArg d
      · rw [firstBad, if_pos hbad] at h
        cases h
        rw [expRun, expStep_bad format args heap st d hd' hbad]
      · rw [firstBad, if_neg hbad] at h
        rcases hA : args.getD (dResolve st.currentImplicitArg d).toNat argDefault with v | p
        · rcases hL : alookup (dResolve st.currentImplicitArg d).toNat st.argToResultPos
            with _ | pos
          · rw [expRun, expStep_leaf_new format args heap st d v hd' hbad hA hL]
            exact ih _ r h
          · rw [expRun, expStep_leaf_old format args heap st d v pos hd' hbad hA hL]
            exact ih _ r h
        · rcases hL : alookup p st.nestedQueries with _ | info
          · rw [expRun, expStep_qptr_new format args heap st d p hd' hbad hA hL]
            exact ih _ r h
          · rw [expRun, expStep_qptr_old format args heap st d p info hd' hbad hA hL]
            exact ih _ r h

theorem sprintfExplicit_error_of_firstBad (format : List Char) (args : List Arg)
    (heap : Heap) (r : Int)
    (h : firstBad args.length (resolveOf format) = some r) :
    sprintfExplicit format args heap = .error (panicMsg (r + 1) args.length) := by
  unfold sprintfExplicit
  rw [expRun_error_of_firstBad format args heap (parseDirectives format) expInit r h]

theorem parseLoop_hasIndex_isLiteral (format : List Char) :
    ∀ (fuel i : Nat) (d : Directive), d ∈ parseLoop format fuel i →
      d.hasIndex = true → d.isLiteral = false := by
  intro fuel
  induction fuel with
  | zero => intro i d h; simp [parseLoop] at h
  | succ fuel ih =>
    intro i d h hidx
    rw [parseLoop] at h
    split at h
    · simp at h
    · split at h
      · exact ih _ d h hidx
      · split at h
        · simp at h
        · split at h
          · rcases List.mem_cons.mp h with rfl | h'
            · simp at hidx
            · exact ih _ d h' hidx
          · split at h
            · rcases List.mem_cons.mp h with rfl | h'
              · rfl
              · exact ih _ d h' hidx
            · simp at h

theorem neg_one_mem_resolveFrom :
    ∀ (ds : List Directive) (cur : Nat) (d : Directive), d ∈ ds →
      d.hasIndex = true → d.isLiteral = false → d.index = 0 →
      (-1 : Int) ∈ resolveFrom cur ds := by
  intro ds
  induction ds with
  | nil => intro cur d h; simp at h
  | cons e ds ih =>
    intro cur d hmem hidx hlit h0
    rcases List.mem_cons.mp hmem with rfl | h'
    · rw [resolveFrom, if_neg (by simp [hlit])]
      have hres : dResolve cur d = -1 := by simp [dResolve, hidx, h0]
      rw [hres]
      exact List.mem_cons_self _ _
    · by_cases he : e.isLiteral = true
      · rw [resolveFrom, if_pos he]
        exact ih cur d h' hidx hlit h0
      · rw [resolveFrom, if_neg he]
        exact List.mem_cons_of_mem _ (ih _ d h' hidx hlit h0)

theorem firstBad_isSome_of_mem (n : Nat) :
    ∀ (rs : List Int) (r : Int), r ∈ rs → (r < 0 ∨ (n : Int) ≤ r) →
      ∃ r', firstBad n rs = some r' := by
  intro rs
  induction rs with
  | nil => intro r h; simp at h
  | cons r₀ rs ih =>
    intro r hmem hbad
    by_cases h₀ : r₀ < 0 ∨ (n : Int) ≤ r₀
    · exact ⟨r₀, by rw [firstBad, if_pos h₀]⟩
    · rcases List.mem_cons.mp hmem with rfl | h'
      · exact absurd hbad h₀
      · obtain ⟨r', hr'⟩ := ih r h' hbad
        exact ⟨r', by rw [firstBad, if_neg h₀]; exact hr'⟩

theorem needsExplicitPath_of_hasIndex (format : List Char) (args : List Arg)
    (heap : Heap) (d : Directive) (hd : d ∈ parseDirectives format)
    (hidx : d.hasIndex = true) :
    needsExplicitPath format args heap = true := by
  unfold needsExplicitPath
  rw [Bool.or_eq_true]
  right
  rw [List.any_eq_true]
  exact ⟨d, hd, hidx⟩

/-- C5 (amended): on the explicit path, the first out-of-range resolved
logical index aborts composition with the panic message naming the
offending 1-based index and the argument count; no query is returned.
The final conjunct spells out that the message indeed contains the 1-based
index and the total count. -/
theorem c5_out_of_range_panics_on_explicit_path (format : List Char) (args : List Arg)
    (heap : Heap) (r : Int)
    (hpath : needsExplicitPath format args heap = true)
    (hbad : firstBad args.length (resolveOf format) = some r) :
    Sprintf format args heap = .error (panicMsg (r + 1) args.length)
    ∧ panicMsg (r + 1) args.length
      = "sqlf.Sprintf: argument index [".toList ++ intChars (r + 1)
        ++ "] out of range; have ".toList ++ intChars args.length ++ " args".toList := by
  constructor
  · unfold Sprintf
    rw [hpath]
    simp only [if_true]
    exact sprintfExplicit_error_of_firstBad format args heap r hbad
  · rfl

/-- Witness for C5 at `Sprintf("a = %[3]s", "a")`. -/
theorem c5_out_of_range_panics_witness :
    Sprintf "a = %[3]s".toList [Arg.leaf (Leaf.str "a")] []
      = .error (panicMsg 3 1)
    ∧ panicMsg 3 1
      = "sqlf.Sprintf: argument index [".toList ++ intChars 3
        ++ "] out of range; have ".toList ++ intChars 1 ++ " args".toList := by
  have h := c5_out_of_range_panics_on_explicit_path "a = %[3]s".toList
    [Arg.leaf (Leaf.str "a")] [] 2 (by rfl) (by rfl)
  exact ⟨h.1, h.2⟩

/-- Counterexample to C5 as stated: on the identity path an out-of-range
implicit directive does not abort — `Sprintf("a = %s AND b = %s", "x")`
returns a query (with missing-argument text baked in) instead of raising
the index-out-of-range error. -/
theorem c5_counterexample_identity_path_no_error :
    (∃ r, firstBad 1 (resolveOf "a = %s AND b = %s".toList) = some r)
    ∧ needsExplicitPath "a = %s AND b = %s".toList [Arg.leaf (Leaf.str "x")] [] = false
    ∧ Sprintf "a = %s AND b = %s".toList [Arg.leaf (Leaf.str "x")] []
      = .ok ⟨"a = %s AND b = %!s(MISSING)".toList, [Arg.leaf (Leaf.str "x")], none⟩ := by
  exact ⟨⟨1, by rfl⟩, by rfl, by rfl⟩

/-- C10 (amended): a template containing a `%[0]`-indexed directive always
makes composition fail, whatever the arguments; and whenever that directive
is the first whose resolved index is out of range (it resolves to `-1`),
the panic message reports the 1-based index `0`. -/
theorem c10_zero_index_always_fails (format : List Char) (args : List Arg)
    (heap : Heap) (d : Directive)
    (hd : d ∈ parseDirectives format) (hidx : d.hasIndex = true) (h0 : d.index = 0) :
    (∃ e, Sprintf format args heap = .error e)
    ∧ (firstBad args.length (resolveOf format) = some (-1) →
        Sprintf format args heap = .error (panicMsg 0 args.length)) := by
  have hlit := parseLoop_hasIndex_isLiteral format _ _ d hd hidx
  have hmem := neg_one_mem_resolveFrom (parseDirectives format) 0 d hd hidx hlit h0
  have hpath := needsExplicitPath_of_hasIndex format args heap d hd hidx
  have hsp : Sprintf format args heap = sprintfExplicit format args heap := by
    unfold Sprintf; rw [hpath]; simp
  constructor
  · obtain ⟨r', hr'⟩ :=
      firstBad_isSome_of_mem args.length (resolveOf format) (-1) hmem (by left; norm_num)
    exact ⟨_, by rw [hsp]; exact sprintfExplicit_error_of_firstBad format args heap r' hr'⟩
  · intro hfb
    have := sprintfExplicit_error_of_firstBad format args heap (-1) hfb
    rw [hsp, this]
    norm_num

/-- Witness for C10 at `Sprintf("%[0]s", "a")`. -/
theorem c10_zero_index_always_fails_witness :
    (∃ e, Sprintf "%[0]s".toList [Arg.leaf (Leaf.str "a")] [] = .error e)
    ∧ (firstBad 1 (resolveOf "%[0]s".toList) = some (-1) →
        Sprintf "%[0]s".toList [Arg.leaf (Leaf.str "a")] []
          = .error (panicMsg 0 1)) :=
  c10_zero_index_always_fails "%[0]s".toList [Arg.leaf (Leaf.str "a")] []
    ⟨0, 5, true, 0, false⟩ (by decide) (by rfl) (by rfl)

/-- Counterexample to C10 as stated: when an earlier directive is already
out of range, the error reports that index, not `0` — here `%[9]s` is hit
first and the message names index 9. -/
theorem c10_counterexample_earlier_index_reported :
    Sprintf "%[9]s AND %[0]s".toList [Arg.leaf (Leaf.str "a")] []
      = .error (panicMsg 9 1)
    ∧ panicMsg 9 1 ≠ panicMsg 0 1 := by
  exact ⟨by rfl, by decide⟩

theorem resolveFrom_all_implicit :
    ∀ (ds : List Directive) (m : Nat),
      (∀ e ∈ ds, e.isLiteral = false ∧ e.hasIndex = false) →
      resolveFrom m ds = (List.range ds.length).map (fun j => ((m + j : Nat) : Int)) := by
  intro ds
  induction ds with
  | nil => intro m _; simp [resolveFrom]
  | cons e ds ih =>
    intro m h
    obtain ⟨hlit, hidx⟩ := h e (List.mem_cons_self e ds)
    rw [resolveFrom, if_neg (by simp [hlit])]
    have hres : dResolve m e = (m : Int) := by simp [dResolve, hidx]
    have hnext : dNext m e = m + 1 := by simp [dNext, hidx]
    rw [hres, hnext, ih (m + 1) (fun e' he' => h e' (List.mem_cons_of_mem _ he'))]
    rw [List.length_cons, List.range_succ_eq_map, List.map_cons, List.map_map]
    congr 1
    congr 1
    funext a
    simp only [Function.comp_apply, Nat.succ_eq_add_one]
    congr 1
    omega

/-- C4: index resolution.  An explicit index `n` (1-based) resolves to
logical index `n−1` and resets the implicit counter to `n`, so directly
following implicit directives resolve to `n, n+1, …`; an implicit run with
no preceding explicit index resolves each directive to the count of prior
implicit resolutions (`0, 1, …`). -/
theorem c4_index_resolution (cur n : Nat) (d : Directive) (ds ds' : List Directive)
    (hlit : d.isLiteral = false) (hidx : d.hasIndex = true) (hn : d.index = n)
    (himp : ∀ e ∈ ds, e.isLiteral = false ∧ e.hasIndex = false)
    (himp' : ∀ e ∈ ds', e.isLiteral = false ∧ e.hasIndex = false) :
    resolveFrom cur (d :: ds)
      = ((n : Int) - 1) :: (List.range ds.length).map (fun j => ((n + j : Nat) : Int))
    ∧ resolveFrom 0 ds'
      = (List.range ds'.length).map (fun j => ((j : Nat) : Int)) := by
  constructor
  · rw [resolveFrom, if_neg (by simp [hlit])]
    rw [resolveFrom_all_implicit ds (dNext cur d) himp]
    simp [dResolve, dNext, hidx, hn]
  · have h := resolveFrom_all_implicit ds' 0 himp'
    simpa using h

/-! ### The loop invariant of `sprintfExplicit` (claims C1, C2, C7) -/

/-- The invariant `sprintfExplicit`'s loop maintains over its mutable
locals: positions cached in `argToResultPos` are in-bounds slots holding
the very source argument, keys and slots are unrepeated, every cached
nested block is a verbatim contiguous slice of `resultArgs`, and the
argument array's length is exactly one slot per cached leaf plus one block
per cached nested query. -/
structure Inv (args : List Arg) (heap : Heap) (st : ExpState) : Prop where
  posBound : ∀ pr ∈ st.argToResultPos, pr.2 < st.resultArgs.length
  posVal : ∀ pr ∈ st.argToResultPos,
    st.resultArgs.getD pr.2 argDefault = args.getD pr.1 argDefault
  posLeaf : ∀ pr ∈ st.argToResultPos, ∃ v, args.getD pr.1 argDefault = Arg.leaf v
  posKeys : (st.argToResultPos.map Prod.fst).Nodup
  posSlots : (st.argToResultPos.map Prod.snd).Nodup
  nestBound : ∀ pn ∈ st.nestedQueries,
    pn.2.offset + (deref heap pn.1).args.length ≤ st.resultArgs.length
  nestSlice : ∀ pn ∈ st.nestedQueries,
    (st.resultArgs.drop pn.2.offset).take (deref heap pn.1).args.length
      = (deref heap pn.1).args
  nestInfo : ∀ pn ∈ st.nestedQueries,
    pn.2.nargIndices = normIndices (deref heap pn.1)
      ∧ pn.2.nfmt = (deref heap pn.1).fmt
  nestKeys : (st.nestedQueries.map Prod.fst).Nodup
  lenCount : st.resultArgs.length = st.argToResultPos.length
    + ((st.nestedQueries.map (fun pn => (deref heap pn.1).args.length)).sum)

theorem Inv_init (args : List Arg) (heap : Heap) : Inv args heap expInit := by
  constructor <;> simp [expInit]

theorem slice_append (A B : List Arg) (off n : Nat) (h : off + n ≤ A.length) :
    ((A ++ B).drop off).take n = (A.drop off).take n := by
  rw [List.drop_append_eq_append_drop, Nat.sub_eq_zero_of_le (by omega), List.drop_zero]
  rw [List.take_append_eq_append_take]
  have hz : n - (A.drop off).length = 0 := by
    rw [List.length_drop]
    omega
  rw [hz, List.take_zero, List.append_nil]

theorem derefWF (heap : Heap) (hwf : HeapWF heap) (p : Nat) : QueryWF (deref heap p) := by
  by_cases hp : p < heap.length
  · have : deref heap p = heap[p] := by
      unfold deref
      exact List.getD_eq_getElem heap nilQuery hp
    rw [this]
    exact hwf _ (List.getElem_mem hp)
  · have : deref heap p = nilQuery := by
      unfold deref
      exact List.getD_eq_default heap nilQuery (by omega)
    rw [this]
    intro i hi
    simp [normIndices, nilQuery] at hi

theorem expStep_ok_not_bad (format : List Char) (args : List Arg) (heap : Heap)
    (st st₁ : ExpState) (d : Directive) (hd : d.isLiteral = false)
    (hstep : expStep format args heap st d = .ok st₁) :
    ¬(dResolve st.currentImplicitArg d < 0 ∨
      (args.length : Int) ≤ dResolve st.currentImplicitArg d) := by
  intro hbad
  rw [expStep_bad format args heap st d hd hbad] at hstep
  cases hstep

theorem Inv_step (format : List Char) (args : List Arg) (heap : Heap)
    (st st₁ : ExpState) (d : Directive) (hInv : Inv args heap st)
    (hstep : expStep format args heap st d = .ok st₁) : Inv args heap st₁ := by
  by_cases hd : d.isLiteral = true
  · rw [expStep_lit format args heap st d hd] at hstep
    injection hstep with h
    subst h
    exact ⟨hInv.posBound, hInv.posVal, hInv.posLeaf, hInv.posKeys, hInv.posSlots,
      hInv.nestBound, hInv.nestSlice, hInv.nestInfo, hInv.nestKeys, hInv.lenCount⟩
  · have hd' : d.isLiteral = false := by simpa using hd
    have hok := expStep_ok_not_bad format args heap st st₁ d hd' hstep
    rcases hA : args.getD (dResolve st.currentImplicitArg d).toNat argDefault with v | p
    · rcases hL : alookup (dResolve st.currentImplicitArg d).toNat st.argToResultPos
        with _ | pos
      · -- new leaf slot
        rw [expStep_leaf_new format args heap st d v hd' hok hA hL] at hstep
        injection hstep with h
        subst h
        refine ⟨?_, ?_, ?_, ?_, ?_, ?_, ?_, hInv.nestInfo, hInv.nestKeys, ?_⟩
        · intro pr hpr
          simp only [List.length_append, List.length_cons, List.length_nil]
          rcases List.mem_cons.mp hpr with rfl | hpr'
          · omega
          · have := hInv.posBound pr hpr'
            omega
        · intro pr hpr
          rcases List.mem_cons.mp hpr with rfl | hpr'
          · rw [hA]
            have : (st.resultArgs ++ [Arg.leaf v]).getD st.resultArgs.length argDefault
                = Arg.leaf v := by
              rw [List.getD_append_right _ _ _ _ (le_refl _)]
              simp
            simpa using this
          · rw [List.getD_append _ _ _ _ (hInv.posBound pr hpr')]
            exact hInv.posVal pr hpr'
        · intro pr hpr
          rcases List.mem_cons.mp hpr with rfl | hpr'
          · exact ⟨v, hA⟩
          · exact hInv.posLeaf pr hpr'
        · simp only [List.map_cons]
          exact List.Nodup.cons (alookup_none_not_mem hL) hInv.posKeys
        · simp only [List.map_cons]
          refine List.Nodup.cons ?_ hInv.posSlots
          intro hmem
          obtain ⟨pr, hpr, hpr2⟩ := List.mem_map.mp hmem
          have := hInv.posBound pr hpr
          omega
        · intro pn hpn
          have := hInv.nestBound pn hpn
          simp only [List.length_append, List.length_cons, List.length_nil]
          omega
        · intro pn hpn
          rw [slice_append _ _ _ _ (hInv.nestBound pn hpn)]
          exact hInv.nestSlice pn hpn
        · have := hInv.lenCount
          simp only [List.length_append, List.length_cons, List.length_nil]
          omega
      · -- reused leaf slot: resultArgs and both maps unchanged
        rw [expStep_leaf_old format args heap st d v pos hd' hok hA hL] at hstep
        injection hstep with h
        subst h
        exact ⟨hInv.posBound, hInv.posVal, hInv.posLeaf, hInv.posKeys, hInv.posSlots,
          hInv.nestBound, hInv.nestSlice, hInv.nestInfo, hInv.nestKeys, hInv.lenCount⟩
    · rcases hL : alookup p st.nestedQueries with _ | info
      · -- new nested block
        rw [expStep_qptr_new format args heap st d p hd' hok hA hL] at hstep
        injection hstep with h
        subst h
        refine ⟨?_, ?_, hInv.posLeaf, hInv.posKeys, hInv.posSlots, ?_, ?_, ?_, ?_, ?_⟩
        · intro pr hpr
          have := hInv.posBound pr hpr
          simp only [List.length_append]
          omega
        · intro pr hpr
          rw [List.getD_append _ _ _ _ (hInv.posBound pr hpr)]
          exact hInv.posVal pr hpr
        · intro pn hpn
          rcases List.mem_cons.mp hpn with rfl | hpn'
          · simp
          · have := hInv.nestBound pn hpn'
            simp only [List.length_append]
            omega
        · intro pn hpn
          rcases List.mem_cons.mp hpn with rfl | hpn'
          · simp only [List.drop_left]
            simp
          · rw [slice_append _ _ _ _ (hInv.nestBound pn hpn')]
            exact hInv.nestSlice pn hpn'
        · intro pn hpn
          rcases List.mem_cons.mp hpn with rfl | hpn'
          · exact ⟨rfl, rfl⟩
          · exact hInv.nestInfo pn hpn'
        · simp only [List.map_cons]
          exact List.Nodup.cons (alookup_none_not_mem hL) hInv.nestKeys
        · have := hInv.lenCount
          simp only [List.length_append, List.map_cons, List.sum_cons]
          omega
      · -- reused nested block: resultArgs and both maps unchanged
        rw [expStep_qptr_old format args heap st d p info hd' hok hA hL] at hstep
        injection hstep with h
        subst h
        exact ⟨hInv.posBound, hInv.posVal, hInv.posLeaf, hInv.posKeys, hInv.posSlots,
          hInv.nestBound, hInv.nestSlice, hInv.nestInfo, hInv.nestKeys, hInv.lenCount⟩

theorem expRun_cons_ok (format : List Char) (args : List Arg) (heap : Heap)
    (st st' : ExpState) (d : Directive) (ds : List Directive)
    (hrun : expRun format args heap st (d :: ds) = .ok st') :
    ∃ st₁, expStep format args heap st d = .ok st₁
      ∧ expRun format args heap st₁ ds = .ok st' := by
  rw [expRun] at hrun
  cases hstep : expStep format args heap st d with
  | error e => rw [hstep] at hrun; cases hrun
  | ok st₁ => rw [hstep] at hrun; exact ⟨st₁, rfl, hrun⟩

theorem expRunsAux_cons_ok (format : List Char) (args : List Arg) (heap : Heap)
    (st : ExpState) (d : Directive) (ds : List Directive) (runs : List (List Nat))
    (hruns : expRunsAux format args heap st (d :: ds) = .ok runs) :
    ∃ st₁ runs', expStep format args heap st d = .ok st₁
      ∧ expRunsAux format args heap st₁ ds = .ok runs'
      ∧ runs = (st₁.argIndices.drop st.argIndices.length) :: runs' := by
  rw [expRunsAux] at hruns
  cases hstep : expStep format args heap st d with
  | error e => rw [hstep] at hruns; cases hruns
  | ok st₁ =>
    rw [hstep] at hruns
    have hruns2 : (match expRunsAux format args heap st₁ ds with
        | Except.error e => (Except.error e : Except (List Char) (List (List Nat)))
        | Except.ok runs' =>
            Except.ok ((st₁.argIndices.drop st.argIndices.length) :: runs'))
        = Except.ok runs := hruns
    cases haux : expRunsAux format args heap st₁ ds with
    | error e => rw [haux] at hruns2; cases hruns2
    | ok runs' =>
      rw [haux] at hruns2
      injection hruns2 with h
      exact ⟨st₁, runs', rfl, haux, h.symm⟩

theorem Inv_run (format : List Char) (args : List Arg) (heap : Heap) :
    ∀ (ds : List Directive) (st st' : ExpState), Inv args heap st →
    expRun format args heap st ds = .ok st' → Inv args heap st' := by
  intro ds
  induction ds with
  | nil =>
    intro st st' h hrun
    rw [expRun] at hrun
    injection hrun with heq
    subst heq
    exact h
  | cons d ds ih =>
    intro st st' h hrun
    obtain ⟨st₁, hstep, hrun'⟩ := expRun_cons_ok format args heap st st' d ds hrun
    exact ih st₁ st' (Inv_step format args heap st st₁ d h hstep) hrun'

theorem expStep_nest_stable (format : List Char) (args : List Arg) (heap : Heap)
    (st st₁ : ExpState) (d : Directive) (p : Nat) (info : NestedInfo)
    (hstep : expStep format args heap st d = .ok st₁)
    (h : alookup p st.nestedQueries = some info) :
    alookup p st₁.nestedQueries = some info := by
  by_cases hd : d.isLiteral = true
  · rw [expStep_lit format args heap st d hd] at hstep
    injection hstep with heq
    subst heq
    exact h
  · have hd' : d.isLiteral = false := by simpa using hd
    have hok := expStep_ok_not_bad format args heap st st₁ d hd' hstep
    rcases hA : args.getD (dResolve st.currentImplicitArg d).toNat argDefault with v | p'
    · rcases hL : alookup (dResolve st.currentImplicitArg d).toNat st.argToResultPos
        with _ | pos
      · rw [expStep_leaf_new format args heap st d v hd' hok hA hL] at hstep
        injection hstep with heq
        subst heq
        exact h
      · rw [expStep_leaf_old format args heap st d v pos hd' hok hA hL] at hstep
        injection hstep with heq
        subst heq
        exact h
    · rcases hL : alookup p' st.nestedQueries with _ | info'
      · rw [expStep_qptr_new format args heap st d p' hd' hok hA hL] at hstep
        injection hstep with heq
        subst heq
        show alookup p ((p', _) :: st.nestedQueries) = some info
        rw [alookup_cons]
        by_cases hpp : p' = p
        · subst hpp
          rw [hL] at h
          cases h
        · rw [if_neg hpp]
          exact h
      · rw [expStep_qptr_old format args heap st d p' info' hd' hok hA hL] at hstep
        injection hstep with heq
        subst heq
        exact h

theorem expRun_nest_stable (format : List Char) (args : List Arg) (heap : Heap) :
    ∀ (ds : List Directive) (st st' : ExpState) (p : Nat) (info : NestedInfo),
    expRun format args heap st ds = .ok st' →
    alookup p st.nestedQueries = some info →
    alookup p st'.nestedQueries = some info := by
  intro ds
  induction ds with
  | nil =>
    intro st st' p info hrun h
    rw [expRun] at hrun
    injection hrun with heq
    subst heq
    exact h
  | cons d ds ih =>
    intro st st' p info hrun h
    obtain ⟨st₁, hstep, hrun'⟩ := expRun_cons_ok format args heap st st' d ds hrun
    exact ih st₁ st' p info hrun'
      (expStep_nest_stable format args heap st st₁ d p info hstep h)

theorem expStep_pos_stable (format : List Char) (args : List Arg) (heap : Heap)
    (st st₁ : ExpState) (d : Directive) (k pos : Nat)
    (hstep : expStep format args heap st d = .ok st₁)
    (h : alookup k st.argToResultPos = some pos) :
    alookup k st₁.argToResultPos = some pos := by
  by_cases hd : d.isLiteral = true
  · rw [expStep_lit format args heap st d hd] at hstep
    injection hstep with heq
    subst heq
    exact h
  · have hd' : d.isLiteral = false := by simpa using hd
    have hok := expStep_ok_not_bad format args heap st st₁ d hd' hstep
    rcases hA : args.getD (dResolve st.currentImplicitArg d).toNat argDefault with v | p'
    · rcases hL : alookup (dResolve st.currentImplicitArg d).toNat st.argToResultPos
        with _ | pos'
      · rw [expStep_leaf_new format args heap st d v hd' hok hA hL] at hstep
        injection hstep with heq
        subst heq
        show alookup k (((dResolve st.currentImplicitArg d).toNat, _)
          :: st.argToResultPos) = some pos
        rw [alookup_cons]
        by_cases hkk : (dResolve st.currentImplicitArg d).toNat = k
        · subst hkk
          rw [hL] at h
          cases h
        · rw [if_neg hkk]
          exact h
      · rw [expStep_leaf_old format args heap st d v pos' hd' hok hA hL] at hstep
        injection hstep with heq
        subst heq
        exact h
    · rcases hL : alookup p' st.nestedQueries with _ | info'
      · rw [expStep_qptr_new format args heap st d p' hd' hok hA hL] at hstep
        injection hstep with heq
        subst heq
        exact h
      · rw [expStep_qptr_old format args heap st d p' info' hd' hok hA hL] at hstep
        injection hstep with heq
        subst heq
        exact h

theorem expRun_pos_stable (format : List Char) (args : List Arg) (heap : Heap) :
    ∀ (ds : List Directive) (st st' : ExpState) (k pos : Nat),
    expRun format args heap st ds = .ok st' →
    alookup k st.argToResultPos = some pos →
    alookup k st'.argToResultPos = some pos := by
  intro ds
  induction ds with
  | nil =>
    intro st st' k pos hrun h
    rw [expRun] at hrun
    injection hrun with heq
    subst heq
    exact h
  | cons d ds ih =>
    intro st st' k pos hrun h
    obtain ⟨st₁, hstep, hrun'⟩ := expRun_cons_ok format args heap st st' d ds hrun
    exact ih st₁ st' k pos hrun'
      (expStep_pos_stable format args heap st st₁ d k pos hstep h)

theorem expStep_ok_cur (format : List Char) (args : List Arg) (heap : Heap)
    (st st₁ : ExpState) (d : Directive)
    (hstep : expStep format args heap st d = .ok st₁) :
    st₁.currentImplicitArg
      = if d.isLiteral = true then st.currentImplicitArg
        else dNext st.currentImplicitArg d := by
  by_cases hd : d.isLiteral = true
  · rw [expStep_lit format args heap st d hd] at hstep
    injection hstep with h
    subst h
    rw [if_pos hd]
  · have hd' : d.isLiteral = false := by simpa using hd
    have hok := expStep_ok_not_bad format args heap st st₁ d hd' hstep
    rw [if_neg hd]
    rcases hA : args.getD (dResolve st.currentImplicitArg d).toNat argDefault with v | p
    · rcases hL : alookup (dResolve st.currentImplicitArg d).toNat st.argToResultPos
        with _ | pos
      · rw [expStep_leaf_new format args heap st d v hd' hok hA hL] at hstep
        injection hstep with h
        subst h
        rfl
      · rw [expStep_leaf_old format args heap st d v pos hd' hok hA hL] at hstep
        injection hstep with h
        subst h
        rfl
    · rcases hL : alookup p st.nestedQueries with _ | info
      · rw [expStep_qptr_new format args heap st d p hd' hok hA hL] at hstep
        injection hstep with h
        subst h
        rfl
      · rw [expStep_qptr_old format args heap st d p info hd' hok hA hL] at hstep
        injection hstep with h
        subst h
        rfl

theorem expRuns_qptr (format : List Char) (args : List Arg) (heap : Heap) :
    ∀ (ds : List Directive) (st st' : ExpState) (runs : List (List Nat)),
    expRun format args heap st ds = .ok st' →
    expRunsAux format args heap st ds = .ok runs →
    ∀ (k : Nat) (r : Int) (p : Nat),
      (resolveAllFrom st.currentImplicitArg ds).get? k = some (some r) →
      args.getD r.toNat argDefault = Arg.qptr p →
      ∃ info, alookup p st'.nestedQueries = some info
        ∧ runs.get? k = some (info.nargIndices.map (fun j => info.offset + j)) := by
  intro ds
  induction ds with
  | nil =>
    intro st st' runs _ _ k r p hk _
    rw [resolveAllFrom] at hk
    simp at hk
  | cons d ds ih =>
    intro st st' runs hrun hruns k r p hk harg
    obtain ⟨st₁, hstep, hrun'⟩ := expRun_cons_ok format args heap st st' d ds hrun
    obtain ⟨st₁', runs', hstep', hruns', hreq⟩ :=
      expRunsAux_cons_ok format args heap st d ds runs hruns
    rw [hstep] at hstep'
    injection hstep' with hst₁
    subst hst₁
    by_cases hd : d.isLiteral = true
    · rw [resolveAllFrom, if_pos hd] at hk
      cases k with
      | zero => simp at hk
      | succ k' =>
        rw [List.get?_cons_succ] at hk
        have hcur := expStep_ok_cur format args heap st st₁ d hstep
        rw [if_pos hd] at hcur
        subst hreq
        rw [List.get?_cons_succ]
        exact ih st₁ st' runs' hrun' hruns' k' r p (by rw [hcur]; exact hk) harg
    · have hd' : d.isLiteral = false := by simpa using hd
      have hok := expStep_ok_not_bad format args heap st st₁ d hd' hstep
      rw [resolveAllFrom, if_neg (by simp [hd'])] at hk
      cases k with
      | succ k' =>
        rw [List.get?_cons_succ] at hk
        have hcur := expStep_ok_cur format args heap st st₁ d hstep
        rw [if_neg (by simp [hd'])] at hcur
        subst hreq
        rw [List.get?_cons_succ]
        exact ih st₁ st' runs' hrun' hruns' k' r p (by rw [hcur]; exact hk) harg
      | zero =>
        simp only [List.get?_cons_zero, Option.some.injEq] at hk
        subst hk
        rcases hL : alookup p st.nestedQueries with _ | info
        · rw [expStep_qptr_new format args heap st d p hd' hok harg hL] at hstep
          injection hstep with hst
          have hl₁ : alookup p st₁.nestedQueries
              = some ⟨st.resultArgs.length, (deref heap p).fmt,
                  normIndices (deref heap p)⟩ := by
            rw [← hst]
            show alookup p ((p, _) :: st.nestedQueries) = _
            rw [alookup_cons, if_pos rfl]
          have hstable := expRun_nest_stable format args heap ds st₁ st' p _ hrun' hl₁
          refine ⟨_, hstable, ?_⟩
          subst hreq
          rw [List.get?_cons_zero]
          have hidx : st₁.argIndices = st.argIndices
              ++ (normIndices (deref heap p)).map
                  (fun k => st.resultArgs.length + k) := by
            rw [← hst]
          rw [hidx, List.drop_left]
        · rw [expStep_qptr_old format args heap st d p info hd' hok harg hL] at hstep
          injection hstep with hst
          have hl₁ : alookup p st₁.nestedQueries = some info := by
            rw [← hst]
            exact hL
          have hstable := expRun_nest_stable format args heap ds st₁ st' p info hrun' hl₁
          refine ⟨info, hstable, ?_⟩
          subst hreq
          rw [List.get?_cons_zero]
          have hidx : st₁.argIndices = st.argIndices
              ++ info.nargIndices.map (fun k => info.offset + k) := by
            rw [← hst]
          rw [hidx, List.drop_left]

theorem expRuns_leaf (format : List Char) (args : List Arg) (heap : Heap) :
    ∀ (ds : List Directive) (st st' : ExpState) (runs : List (List Nat)),
    expRun format args heap st ds = .ok st' →
    expRunsAux format args heap st ds = .ok runs →
    ∀ (k : Nat) (r : Int) (v : Leaf),
      (resolveAllFrom st.currentImplicitArg ds).get? k = some (some r) →
      args.getD r.toNat argDefault = Arg.leaf v →
      ∃ s, alookup r.toNat st'.argToResultPos = some s
        ∧ runs.get? k = some [s] := by
  intro ds
  induction ds with
  | nil =>
    intro st st' runs _ _ k r v hk _
    rw [resolveAllFrom] at hk
    simp at hk
  | cons d ds ih =>
    intro st st' runs hrun hruns k r v hk harg
    obtain ⟨st₁, hstep, hrun'⟩ := expRun_cons_ok format args heap st st' d ds hrun
    obtain ⟨st₁', runs', hstep', hruns', hreq⟩ :=
      expRunsAux_cons_ok format args heap st d ds runs hruns
    rw [hstep] at hstep'
    injection hstep' with hst₁
    subst hst₁
    by_cases hd : d.isLiteral = true
    · rw [resolveAllFrom, if_pos hd] at hk
      cases k with
      | zero => simp at hk
      | succ k' =>
        rw [List.get?_cons_succ] at hk
        have hcur := expStep_ok_cur format args heap st st₁ d hstep
        rw [if_pos hd] at hcur
        subst hreq
        rw [List.get?_cons_succ]
        exact ih st₁ st' runs' hrun' hruns' k' r v (by rw [hcur]; exact hk) harg
    · have hd' : d.isLiteral = false := by simpa using hd
      have hok := expStep_ok_not_bad format args heap st st₁ d hd' hstep
      rw [resolveAllFrom, if_neg (by simp [hd'])] at hk
      cases k with
      | succ k' =>
        rw [List.get?_cons_succ] at hk
        have hcur := expStep_ok_cur format args heap st st₁ d hstep
        rw [if_neg (by simp [hd'])] at hcur
        subst hreq
        rw [List.get?_cons_succ]
        exact ih st₁ st' runs' hrun' hruns' k' r v (by rw [hcur]; exact hk) harg
      | zero =>
        simp only [List.get?_cons_zero, Option.some.injEq] at hk
        subst hk
        rcases hL : alookup (dResolve st.currentImplicitArg d).toNat st.argToResultPos
            with _ | pos
        · rw [expStep_leaf_new format args heap st d v hd' hok harg hL] at hstep
          injection hstep with hst
          have hl₁ : alookup (dResolve st.currentImplicitArg d).toNat st₁.argToResultPos
              = some st.resultArgs.length := by
            rw [← hst]
            show alookup _ ((_, _) :: st.argToResultPos) = _
            rw [alookup_cons, if_pos rfl]
          have hstable := expRun_pos_stable format args heap ds st₁ st' _ _ hrun' hl₁
          refine ⟨st.resultArgs.length, hstable, ?_⟩
          subst hreq
          rw [List.get?_cons_zero]
          have hidx : st₁.argIndices = st.argIndices ++ [st.resultArgs.length] := by
            rw [← hst]
          rw [hidx, List.drop_left]
        · rw [expStep_leaf_old format args heap st d v pos hd' hok harg hL] at hstep
          injection hstep with hst
          have hl₁ : alookup (dResolve st.currentImplicitArg d).toNat st₁.argToResultPos
              = some pos := by
            rw [← hst]
            exact hL
          have hstable := expRun_pos_stable format args heap ds st₁ st' _ _ hrun' hl₁
          refine ⟨pos, hstable, ?_⟩
          subst hreq
          rw [List.get?_cons_zero]
          have hidx : st₁.argIndices = st.argIndices ++ [pos] := by
            rw [← hst]
          rw [hidx, List.drop_left]

theorem leafRefs_cons_leaf (args : List Arg) (r : Int) (rs : List Int) (v : Leaf)
    (h : args.getD r.toNat argDefault = Arg.leaf v) :
    leafRefs args (r :: rs) = r.toNat :: leafRefs args rs := by
  have h' : args[r.toNat]?.getD argDefault = Arg.leaf v := by simpa [List.getD] using h
  simp [leafRefs, List.filterMap_cons, h']

theorem leafRefs_cons_qptr (args : List Arg) (r : Int) (rs : List Int) (p : Nat)
    (h : args.getD r.toNat argDefault = Arg.qptr p) :
    leafRefs args (r :: rs) = leafRefs args rs := by
  have h' : args[r.toNat]?.getD argDefault = Arg.qptr p := by simpa [List.getD] using h
  simp [leafRefs, List.filterMap_cons, h']

theorem ptrRefs_cons_leaf (args : List Arg) (r : Int) (rs : List Int) (v : Leaf)
    (h : args.getD r.toNat argDefault = Arg.leaf v) :
    ptrRefs args (r :: rs) = ptrRefs args rs := by
  have h' : args[r.toNat]?.getD argDefault = Arg.leaf v := by simpa [List.getD] using h
  simp [ptrRefs, List.filterMap_cons, h']

theorem ptrRefs_cons_qptr (args : List Arg) (r : Int) (rs : List Int) (p : Nat)
    (h : args.getD r.toNat argDefault = Arg.qptr p) :
    ptrRefs args (r :: rs) = p :: ptrRefs args rs := by
  have h' : args[r.toNat]?.getD argDefault = Arg.qptr p := by simpa [List.getD] using h
  simp [ptrRefs, List.filterMap_cons, h']

theorem expRun_keys (format : List Char) (args : List Arg) (heap : Heap) :
    ∀ (ds : List Directive) (st st' : ExpState),
    expRun format args heap st ds = .ok st' →
    (∀ k, k ∈ st'.argToResultPos.map Prod.fst ↔
       (k ∈ st.argToResultPos.map Prod.fst
         ∨ k ∈ leafRefs args (resolveFrom st.currentImplicitArg ds)))
    ∧ (∀ p, p ∈ st'.nestedQueries.map Prod.fst ↔
       (p ∈ st.nestedQueries.map Prod.fst
         ∨ p ∈ ptrRefs args (resolveFrom st.currentImplicitArg ds))) := by
  intro ds
  induction ds with
  | nil =>
    intro st st' hrun
    rw [expRun] at hrun
    injection hrun with h
    subst h
    constructor
    · intro k
      simp [resolveFrom, leafRefs]
    · intro p
      simp [resolveFrom, ptrRefs]
  | cons d ds ih =>
    intro st st' hrun
    obtain ⟨st₁, hstep, hrun'⟩ := expRun_cons_ok format args heap st st' d ds hrun
    have h := ih st₁ st' hrun'
    by_cases hd : d.isLiteral = true
    · rw [expStep_lit format args heap st d hd] at hstep
      injection hstep with hst
      subst hst
      rw [resolveFrom, if_pos hd]
      exact h
    · have hd' : d.isLiteral = false := by simpa using hd
      have hok := expStep_ok_not_bad format args heap st st₁ d hd' hstep
      rw [resolveFrom, if_neg (by simp [hd'])]
      rcases hA : args.getD (dResolve st.currentImplicitArg d).toNat argDefault with v | p
      · rcases hL : alookup (dResolve st.currentImplicitArg d).toNat st.argToResultPos
          with _ | pos
        · rw [expStep_leaf_new format args heap st d v hd' hok hA hL] at hstep
          injection hstep with hst
          subst hst
          rw [leafRefs_cons_leaf args _ _ v hA, ptrRefs_cons_leaf args _ _ v hA]
          constructor
          · intro k
            rw [h.1 k]
            simp only [List.map_cons, List.mem_cons]
            tauto
          · intro p
            exact h.2 p
        · rw [expStep_leaf_old format args heap st d v pos hd' hok hA hL] at hstep
          injection hstep with hst
          subst hst
          rw [leafRefs_cons_leaf args _ _ v hA, ptrRefs_cons_leaf args _ _ v hA]
          have hmem : (dResolve st.currentImplicitArg d).toNat
              ∈ st.argToResultPos.map Prod.fst :=
            List.mem_map.mpr ⟨_, alookup_mem hL, rfl⟩
          constructor
          · intro k
            rw [h.1 k]
            simp only [List.mem_cons]
            constructor
            · intro hh
              tauto
            · rintro (hh | rfl | hh)
              · tauto
              · exact Or.inl hmem
              · tauto
          · intro p
            exact h.2 p
      · rcases hL : alookup p st.nestedQueries with _ | info
        · rw [expStep_qptr_new format args heap st d p hd' hok hA hL] at hstep
          injection hstep with hst
          subst hst
          rw [leafRefs_cons_qptr args _ _ p hA, ptrRefs_cons_qptr args _ _ p hA]
          constructor
          · intro k
            exact h.1 k
          · intro p'
            rw [h.2 p']
            simp only [List.map_cons, List.mem_cons]
            tauto
        · rw [expStep_qptr_old format args heap st d p info hd' hok hA hL] at hstep
          injection hstep with hst
          subst hst
          rw [leafRefs_cons_qptr args _ _ p hA, ptrRefs_cons_qptr args _ _ p hA]
          have hmem : p ∈ st.nestedQueries.map Prod.fst :=
            List.mem_map.mpr ⟨_, alookup_mem hL, rfl⟩
          constructor
          · intro k
            exact h.1 k
          · intro p'
            rw [h.2 p']
            simp only [List.mem_cons]
            constructor
            · intro hh
              tauto
            · rintro (hh | rfl | hh)
              · tauto
              · exact Or.inl hmem
              · tauto

theorem expRun_idxLen (format : List Char) (args : List Arg) (heap : Heap) :
    ∀ (ds : List Directive) (st st' : ExpState), Inv args heap st →
    expRun format args heap st ds = .ok st' →
    st'.argIndices.length = st.argIndices.length
      + ((resolveFrom st.currentImplicitArg ds).map (contrib args heap)).sum := by
  intro ds
  induction ds with
  | nil =>
    intro st st' _ hrun
    rw [expRun] at hrun
    injection hrun with h
    subst h
    simp [resolveFrom]
  | cons d ds ih =>
    intro st st' hInv hrun
    obtain ⟨st₁, hstep, hrun'⟩ := expRun_cons_ok format args heap st st' d ds hrun
    have hInv₁ := Inv_step format args heap st st₁ d hInv hstep
    have h := ih st₁ st' hInv₁ hrun'
    by_cases hd : d.isLiteral = true
    · rw [expStep_lit format args heap st d hd] at hstep
      injection hstep with hst
      subst hst
      rw [resolveFrom, if_pos hd]
      exact h
    · have hd' : d.isLiteral = false := by simpa using hd
      have hok := expStep_ok_not_bad format args heap st st₁ d hd' hstep
      rw [resolveFrom, if_neg (by simp [hd'])]
      rcases hA : args.getD (dResolve st.currentImplicitArg d).toNat argDefault with v | p
      · have hA' : args[(dResolve st.currentImplicitArg d).toNat]?.getD argDefault
            = Arg.leaf v := by simpa [List.getD] using hA
        have hcontrib : contrib args heap (dResolve st.currentImplicitArg d) = 1 := by
          simp [contrib, hA']
        rcases hL : alookup (dResolve st.currentImplicitArg d).toNat st.argToResultPos
          with _ | pos
        · rw [expStep_leaf_new format args heap st d v hd' hok hA hL] at hstep
          injection hstep with hst
          subst hst
          rw [h]
          simp [hcontrib]
          omega
        · rw [expStep_leaf_old format args heap st d v pos hd' hok hA hL] at hstep
          injection hstep with hst
          subst hst
          rw [h]
          simp [hcontrib]
          omega
      · have hA' : args[(dResolve st.currentImplicitArg d).toNat]?.getD argDefault
            = Arg.qptr p := by simpa [List.getD] using hA
        have hcontrib : contrib args heap (dResolve st.currentImplicitArg d)
            = (normIndices (deref heap p)).length := by
          simp [contrib, hA']
        rcases hL : alookup p st.nestedQueries with _ | info
        · rw [expStep_qptr_new format args heap st d p hd' hok hA hL] at hstep
          injection hstep with hst
          subst hst
          rw [h]
          simp [hcontrib]
          omega
        · rw [expStep_qptr_old format args heap st d p info hd' hok hA hL] at hstep
          injection hstep with hst
          subst hst
          rw [h]
          have hni := (hInv.nestInfo _ (alookup_mem hL)).1
          simp only [List.map_cons, List.sum_cons, List.length_append, List.length_map,
            hcontrib]
          rw [hni]
          simp only [List.length_map]
          omega

theorem expRun_idxBound (format : List Char) (args : List Arg) (heap : Heap)
    (hwf : HeapWF heap) :
    ∀ (ds : List Directive) (st st' : ExpState), Inv args heap st →
    (∀ i ∈ st.argIndices, i < st.resultArgs.length) →
    expRun format args heap st ds = .ok st' →
    ∀ i ∈ st'.argIndices, i < st'.resultArgs.length := by
  intro ds
  induction ds with
  | nil =>
    intro st st' _ hbase hrun
    rw [expRun] at hrun
    injection hrun with h
    subst h
    exact hbase
  | cons d ds ih =>
    intro st st' hInv hbase hrun
    obtain ⟨st₁, hstep, hrun'⟩ := expRun_cons_ok format args heap st st' d ds hrun
    have hInv₁ := Inv_step format args heap st st₁ d hInv hstep
    refine ih st₁ st' hInv₁ ?_ hrun'
    by_cases hd : d.isLiteral = true
    · rw [expStep_lit format args heap st d hd] at hstep
      injection hstep with hst
      subst hst
      exact hbase
    · have hd' : d.isLiteral = false := by simpa using hd
      have hok := expStep_ok_not_bad format args heap st st₁ d hd' hstep
      rcases hA : args.getD (dResolve st.currentImplicitArg d).toNat argDefault with v | p
      · rcases hL : alookup (dResolve st.currentImplicitArg d).toNat st.argToResultPos
          with _ | pos
        · rw [expStep_leaf_new format args heap st d v hd' hok hA hL] at hstep
          injection hstep with hst
          subst hst
          intro i hi
          simp only [List.length_append, List.length_cons, List.length_nil]
          rcases List.mem_append.mp hi with hi' | hi'
          · have := hbase i hi'
            omega
          · simp only [List.mem_cons, List.not_mem_nil, or_false] at hi'
            subst hi'
            omega
        · rw [expStep_leaf_old format args heap st d v pos hd' hok hA hL] at hstep
          injection hstep with hst
          subst hst
          intro i hi
          rcases List.mem_append.mp hi with hi' | hi'
          · exact hbase i hi'
          · simp only [List.mem_cons, List.not_mem_nil, or_false] at hi'
            subst hi'
            exact hInv.posBound _ (alookup_mem hL)
      · rcases hL : alookup p st.nestedQueries with _ | info
        · rw [expStep_qptr_new format args heap st d p hd' hok hA hL] at hstep
          injection hstep with hst
          subst hst
          intro i hi
          simp only [List.length_append]
          rcases List.mem_append.mp hi with hi' | hi'
          · have := hbase i hi'
            omega
          · obtain ⟨j, hj, rfl⟩ := List.mem_map.mp hi'
            have := derefWF heap hwf p j hj
            omega
        · rw [expStep_qptr_old format args heap st d p info hd' hok hA hL] at hstep
          injection hstep with hst
          subst hst
          intro i hi
          rcases List.mem_append.mp hi with hi' | hi'
          · exact hbase i hi'
          · obtain ⟨j, hj, rfl⟩ := List.mem_map.mp hi'
            have hni := hInv.nestInfo _ (alookup_mem hL)
            have hnb : info.offset + (deref heap p).args.length ≤ st.resultArgs.length :=
              hInv.nestBound _ (alookup_mem hL)
            have hjq : j < (deref heap p).args.length := by
              apply derefWF heap hwf p
              rw [← hni.1]
              exact hj
            show info.offset + j < st.resultArgs.length
            omega

theorem sprintfExplicit_ok_state (format : List Char) (args : List Arg) (heap : Heap)
    (res : Query) (h : sprintfExplicit format args heap = .ok res) :
    ∃ st', expRun format args heap expInit (parseDirectives format) = .ok st'
      ∧ res.args = st'.resultArgs
      ∧ res.argIndices
        = (if st'.argIndices.isEmpty then none else some st'.argIndices)
      ∧ res.fmt = st'.resultFmt ++ format.drop st'.lastEnd := by
  unfold sprintfExplicit at h
  cases hrun : expRun format args heap expInit (parseDirectives format) with
  | error e => rw [hrun] at h; cases h
  | ok st' =>
    rw [hrun] at h
    injection h with h2
    subst h2
    exact ⟨st', rfl, rfl, rfl, rfl⟩

theorem expRun_ok_in_range (format : List Char) (args : List Arg) (heap : Heap) :
    ∀ (ds : List Directive) (st st' : ExpState),
    expRun format args heap st ds = .ok st' →
    ∀ r ∈ resolveFrom st.currentImplicitArg ds, 0 ≤ r ∧ r < (args.length : Int) := by
  intro ds
  induction ds with
  | nil =>
    intro st st' _ r hr
    rw [resolveFrom] at hr
    simp at hr
  | cons d ds ih =>
    intro st st' hrun r hr
    obtain ⟨st₁, hstep, hrun'⟩ := expRun_cons_ok format args heap st st' d ds hrun
    have hcur := expStep_ok_cur format args heap st st₁ d hstep
    by_cases hd : d.isLiteral = true
    · rw [resolveFrom, if_pos hd] at hr
      rw [if_pos hd] at hcur
      exact ih st₁ st' hrun' r (by rw [hcur]; exact hr)
    · have hd' : d.isLiteral = false := by simpa using hd
      have hok := expStep_ok_not_bad format args heap st st₁ d hd' hstep
      rw [resolveFrom, if_neg (by simp [hd'])] at hr
      rw [if_neg (by simp [hd'])] at hcur
      rcases List.mem_cons.mp hr with rfl | hr'
      · push_neg at hok
        exact ⟨by omega, hok.2⟩
      · exact ih st₁ st' hrun' r (by rw [hcur]; exact hr')

theorem resolveAll_get_mem :
    ∀ (ds : List Directive) (cur k : Nat) (r : Int),
    (resolveAllFrom cur ds).get? k = some (some r) →
    r ∈ resolveFrom cur ds := by
  intro ds
  induction ds with
  | nil =>
    intro cur k r h
    rw [resolveAllFrom] at h
    simp at h
  | cons d ds ih =>
    intro cur k r h
    by_cases hd : d.isLiteral = true
    · rw [resolveAllFrom, if_pos hd] at h
      rw [resolveFrom, if_pos hd]
      cases k with
      | zero => simp at h
      | succ k' =>
        rw [List.get?_cons_succ] at h
        exact ih cur k' r h
    · rw [resolveAllFrom, if_neg (by simp [hd])] at h
      rw [resolveFrom, if_neg (by simp [hd])]
      cases k with
      | zero =>
        simp only [List.get?_cons_zero, Option.some.injEq] at h
        subst h
        exact List.mem_cons_self _ _
      | succ k' =>
        rw [List.get?_cons_succ] at h
        exact List.mem_cons_of_mem _ (ih _ k' r h)

theorem sprintfExplicit_args_length (format : List Char) (args : List Arg)
    (heap : Heap) (res : Query)
    (h : sprintfExplicit format args heap = .ok res) :
    res.args.length = (leafRefs args (resolveOf format)).toFinset.card
      + ∑ p ∈ (ptrRefs args (resolveOf format)).toFinset,
          (deref heap p).args.length := by
  obtain ⟨st', hrun, hargs, _, _⟩ := sprintfExplicit_ok_state format args heap res h
  have hInv := Inv_run format args heap (parseDirectives format) expInit st'
    (Inv_init args heap) hrun
  have hkeys := expRun_keys format args heap (parseDirectives format) expInit st' hrun
  have hposset : (st'.argToResultPos.map Prod.fst).toFinset
      = (leafRefs args (resolveOf format)).toFinset := by
    apply Finset.ext
    intro a
    rw [List.mem_toFinset, List.mem_toFinset, hkeys.1 a]
    simp [expInit, resolveOf]
  have hnestset : (st'.nestedQueries.map Prod.fst).toFinset
      = (ptrRefs args (resolveOf format)).toFinset := by
    apply Finset.ext
    intro a
    rw [List.mem_toFinset, List.mem_toFinset, hkeys.2 a]
    simp [expInit, resolveOf]
  rw [hargs, hInv.lenCount]
  congr 1
  · rw [show st'.argToResultPos.length = (st'.argToResultPos.map Prod.fst).length from
      (List.length_map _ _).symm]
    rw [← List.toFinset_card_of_nodup hInv.posKeys, hposset]
  · have h1 : st'.nestedQueries.map (fun pn => (deref heap pn.1).args.length)
        = (st'.nestedQueries.map Prod.fst).map (fun p => (deref heap p).args.length) := by
      rw [List.map_map]
      rfl
    rw [h1, ← List.sum_toFinset _ hInv.nestKeys, hnestset]

/-- C1 (amended to the explicit path): when the same `*Query` pointer is
referenced at two or more placeholder positions of an explicit-path
composition, its argument block appears as one contiguous slice of the
result's arguments at a single offset, every directive referencing that
pointer contributes exactly the block's normalized indices shifted by that
offset, and the result's argument count books each distinct leaf position
once and each distinct pointer's block once. -/
theorem c1_nested_pointer_dedup (format : List Char) (args : List Arg) (heap : Heap)
    (p : Nat) (res : Query) (runs : List (List Nat)) (k1 k2 : Nat) (r1 r2 : Int)
    (hwf : HeapWF heap)
    (hok : sprintfExplicit format args heap = .ok res)
    (hruns : sprintfRuns format args heap = .ok runs)
    (hk1 : (resolveAllOf format).get? k1 = some (some r1))
    (hp1 : args.getD r1.toNat argDefault = Arg.qptr p)
    (hk2 : (resolveAllOf format).get? k2 = some (some r2))
    (hp2 : args.getD r2.toNat argDefault = Arg.qptr p)
    (hne : k1 ≠ k2) :
    ∃ offset,
      offset + (deref heap p).args.length ≤ res.args.length
      ∧ (res.args.drop offset).take (deref heap p).args.length = (deref heap p).args
      ∧ (∀ k r, (resolveAllOf format).get? k = some (some r) →
          args.getD r.toNat argDefault = Arg.qptr p →
          runs.get? k = some ((normIndices (deref heap p)).map (fun j => offset + j)))
      ∧ res.args.length = (leafRefs args (resolveOf format)).toFinset.card
          + ∑ q ∈ (ptrRefs args (resolveOf format)).toFinset,
              (deref heap q).args.length := by
  obtain ⟨st', hrun, hargs, _, _⟩ := sprintfExplicit_ok_state format args heap res hok
  have hInv := Inv_run format args heap (parseDirectives format) expInit st'
    (Inv_init args heap) hrun
  obtain ⟨info, hlook, _⟩ := expRuns_qptr format args heap (parseDirectives format)
    expInit st' runs hrun hruns k1 r1 p hk1 hp1
  refine ⟨info.offset, ?_, ?_, ?_,
    sprintfExplicit_args_length format args heap res hok⟩
  · have hb : info.offset + (deref heap p).args.length ≤ st'.resultArgs.length :=
      hInv.nestBound _ (alookup_mem hlook)
    rw [hargs]
    exact hb
  · have hs : (st'.resultArgs.drop info.offset).take (deref heap p).args.length
        = (deref heap p).args := hInv.nestSlice _ (alookup_mem hlook)
    rw [hargs]
    exact hs
  · intro k r hk hp
    obtain ⟨info', hlook', hrunk⟩ := expRuns_qptr format args heap
      (parseDirectives format) expInit st' runs hrun hruns k r p hk hp
    rw [hlook] at hlook'
    injection hlook' with he
    subst he
    have hni : info.nargIndices = normIndices (deref heap p) :=
      (hInv.nestInfo _ (alookup_mem hlook)).1
    rw [hrunk, hni]

/-- Witness for C1: the explicit-path composition
`Sprintf("a = %[1]s AND b = %[1]s", q)` with `q = ("(%s)", ["x"])`. -/
theorem c1_nested_pointer_dedup_witness :
    ∃ offset,
      offset + 1 ≤ 1
      ∧ (([Arg.leaf (Leaf.str "x")].drop offset).take
          (deref [⟨"(%s)".toList, [Arg.leaf (Leaf.str "x")], none⟩] 0).args.length
          = (deref [⟨"(%s)".toList, [Arg.leaf (Leaf.str "x")], none⟩] 0).args)
      ∧ (∀ k r, (resolveAllOf "a = %[1]s AND b = %[1]s".toList).get? k
            = some (some r) →
          [Arg.qptr 0].getD r.toNat argDefault = Arg.qptr 0 →
          [[0], [0]].get? k = some
            ((normIndices (deref [⟨"(%s)".toList, [Arg.leaf (Leaf.str "x")], none⟩] 0)).map
              (fun j => offset + j)))
      ∧ (1 : Nat) = (leafRefs [Arg.qptr 0]
            (resolveOf "a = %[1]s AND b = %[1]s".toList)).toFinset.card
          + ∑ q ∈ (ptrRefs [Arg.qptr 0]
              (resolveOf "a = %[1]s AND b = %[1]s".toList)).toFinset,
              (deref [⟨"(%s)".toList, [Arg.leaf (Leaf.str "x")], none⟩] q).args.length := by
  have h := c1_nested_pointer_dedup "a = %[1]s AND b = %[1]s".toList [Arg.qptr 0]
    [⟨"(%s)".toList, [Arg.leaf (Leaf.str "x")], none⟩] 0
    ⟨"a = (%s) AND b = (%s)".toList, [Arg.leaf (Leaf.str "x")], some [0, 0]⟩
    [[0], [0]] 0 1 0 0
    (by unfold HeapWF QueryWF; decide) (by rfl) (by rfl) (by rfl) (by rfl) (by rfl)
    (by rfl) (by decide)
  exact h

/-- Counterexample to C1 as stated: on the identity path the same pointer
passed at two placeholder positions has its argument block flattened
twice — `Arguments` counts it twice, not once. -/
theorem c1_counterexample_identity_path_duplicates :
    Sprintf "a = %s AND b = %s".toList [Arg.qptr 0, Arg.qptr 0]
        [⟨"(%s)".toList, [Arg.leaf (Leaf.str "x")], none⟩]
      = .ok ⟨"a = (%s) AND b = (%s)".toList,
             [Arg.leaf (Leaf.str "x"), Arg.leaf (Leaf.str "x")], none⟩
    ∧ [Arg.leaf (Leaf.str "x"), Arg.leaf (Leaf.str "x")].length = 2
    ∧ (⟨"(%s)".toList, [Arg.leaf (Leaf.str "x")], none⟩ : Query).args.length = 1
    ∧ (2 : Nat) ≠ 1 := by
  exact ⟨by rfl, by rfl, by rfl, by decide⟩

/-- C2: in the explicit path, a directive resolving to a leaf argument
contributes exactly one entry, whose slot holds that source argument;
directives resolving to the same source position share the slot, and
directives resolving to different source positions never share a slot
(deduplication by position, not by value).  The final conjuncts check the
out-of-order example from the claim. -/
theorem c2_leaf_slot_dedup_by_position (format : List Char) (args : List Arg)
    (heap : Heap) (res : Query) (runs : List (List Nat)) (k1 k2 : Nat)
    (r1 r2 : Int) (v1 v2 : Leaf)
    (hok : sprintfExplicit format args heap = .ok res)
    (hruns : sprintfRuns format args heap = .ok runs)
    (hk1 : (resolveAllOf format).get? k1 = some (some r1))
    (hv1 : args.getD r1.toNat argDefault = Arg.leaf v1)
    (hk2 : (resolveAllOf format).get? k2 = some (some r2))
    (hv2 : args.getD r2.toNat argDefault = Arg.leaf v2) :
    (∃ s1, runs.get? k1 = some [s1] ∧ s1 < res.args.length
       ∧ res.args.getD s1 argDefault = Arg.leaf v1)
    ∧ (r1 = r2 → runs.get? k1 = runs.get? k2)
    ∧ (r1 ≠ r2 → runs.get? k1 ≠ runs.get? k2)
    ∧ Sprintf "a = %[2]s AND b = %[1]s".toList
        [Arg.leaf (Leaf.str "first"), Arg.leaf (Leaf.str "second")] []
      = .ok ⟨"a = %s AND b = %s".toList,
             [Arg.leaf (Leaf.str "second"), Arg.leaf (Leaf.str "first")], some [0, 1]⟩
    ∧ Query.render ⟨"a = %s AND b = %s".toList,
          [Arg.leaf (Leaf.str "second"), Arg.leaf (Leaf.str "first")], some [0, 1]⟩
          postgresBindVar
      = "a = $1 AND b = $2".toList := by
  obtain ⟨st', hrun, hargs, _, _⟩ := sprintfExplicit_ok_state format args heap res hok
  have hInv := Inv_run format args heap (parseDirectives format) expInit st'
    (Inv_init args heap) hrun
  obtain ⟨s1, hlook1, hrun1⟩ := expRuns_leaf format args heap (parseDirectives format)
    expInit st' runs hrun hruns k1 r1 v1 hk1 hv1
  obtain ⟨s2, hlook2, hrun2⟩ := expRuns_leaf format args heap (parseDirectives format)
    expInit st' runs hrun hruns k2 r2 v2 hk2 hv2
  have hr1 : 0 ≤ r1 ∧ r1 < (args.length : Int) :=
    expRun_ok_in_range format args heap (parseDirectives format) expInit st' hrun r1
      (resolveAll_get_mem (parseDirectives format) 0 k1 r1 hk1)
  have hr2 : 0 ≤ r2 ∧ r2 < (args.length : Int) :=
    expRun_ok_in_range format args heap (parseDirectives format) expInit st' hrun r2
      (resolveAll_get_mem (parseDirectives format) 0 k2 r2 hk2)
  refine ⟨⟨s1, hrun1, ?_, ?_⟩, ?_, ?_, by rfl, by rfl⟩
  · have hb : ((r1.toNat, s1) : Nat × Nat).2 < st'.resultArgs.length :=
      hInv.posBound _ (alookup_mem hlook1)
    rw [hargs]
    exact hb
  · have hv : st'.resultArgs.getD s1 argDefault = args.getD r1.toNat argDefault :=
      hInv.posVal _ (alookup_mem hlook1)
    rw [hargs, hv, hv1]
  · intro hr
    subst hr
    rw [hlook1] at hlook2
    injection hlook2 with hs
    subst hs
    rw [hrun1, hrun2]
  · intro hr
    have hrn : r1.toNat ≠ r2.toNat := by omega
    have hsne : s1 ≠ s2 := by
      intro hs
      subst hs
      have := List.inj_on_of_nodup_map hInv.posSlots
        (alookup_mem hlook1) (alookup_mem hlook2) rfl
      exact hrn (congrArg Prod.fst this)
    rw [hrun1, hrun2]
    intro hcontra
    injection hcontra with hc
    injection hc with hc1 hc2
    exact hsne hc1


/-- Witness for C2 at the out-of-order example itself. -/
theorem c2_leaf_slot_dedup_by_position_witness :
    (∃ s1, [[0], [1]].get? 0 = some [s1]
       ∧ s1 < [Arg.leaf (Leaf.str "second"), Arg.leaf (Leaf.str "first")].length
       ∧ [Arg.leaf (Leaf.str "second"), Arg.leaf (Leaf.str "first")].getD s1 argDefault
           = Arg.leaf (Leaf.str "second"))
    ∧ ((1 : Int) = 0 → [[0], [1]].get? 0 = [[0], [1]].get? 1)
    ∧ ((1 : Int) ≠ 0 → [[0], [1]].get? 0 ≠ [[0], [1]].get? 1)
    ∧ Sprintf "a = %[2]s AND b = %[1]s".toList
        [Arg.leaf (Leaf.str "first"), Arg.leaf (Leaf.str "second")] []
      = .ok ⟨"a = %s AND b = %s".toList,
             [Arg.leaf (Leaf.str "second"), Arg.leaf (Leaf.str "first")], some [0, 1]⟩
    ∧ Query.render ⟨"a = %s AND b = %s".toList,
          [Arg.leaf (Leaf.str "second"), Arg.leaf (Leaf.str "first")], some [0, 1]⟩
          postgresBindVar
      = "a = $1 AND b = $2".toList :=
  c2_leaf_slot_dedup_by_position "a = %[2]s AND b = %[1]s".toList
    [Arg.leaf (Leaf.str "first"), Arg.leaf (Leaf.str "second")] []
    ⟨"a = %s AND b = %s".toList,
     [Arg.leaf (Leaf.str "second"), Arg.leaf (Leaf.str "first")], some [0, 1]⟩
    [[0], [1]] 0 1 1 0 (Leaf.str "second") (Leaf.str "first")
    (by rfl) (by rfl) (by rfl) (by rfl) (by rfl) (by rfl)


/-! ### `Join` (claim C6, and lemmas reused for C7) -/

theorem flatMap_congr {α β : Type} (l : List α) (g g' : α → List β)
    (h : ∀ x ∈ l, g x = g' x) : l.flatMap g = l.flatMap g' := by
  induction l with
  | nil => rfl
  | cons a l ih =>
    simp only [List.flatMap_cons]
    rw [h a (List.mem_cons_self a l), ih (fun x hx => h x (List.mem_cons_of_mem _ hx))]

theorem flatMap_map {α β γ : Type} (l : List α) (f : α → β) (g : β → List γ) :
    (l.map f).flatMap g = l.flatMap (fun x => g (f x)) := by
  induction l with
  | nil => rfl
  | cons a l ih => simp only [List.map_cons, List.flatMap_cons, ih]

theorem joinLoop_args : ∀ (qs : List Query) (off : Nat),
    (joinLoop qs off).1 = qs.flatMap (fun q => q.args) := by
  intro qs
  induction qs with
  | nil => intro off; simp [joinLoop]
  | cons q qs ih => intro off; simp [joinLoop, ih]

theorem offsetBefore_zero (qs : List Query) : offsetBefore qs 0 = 0 := by
  simp [offsetBefore]

theorem offsetBefore_cons (q : Query) (qs : List Query) (i : Nat) :
    offsetBefore (q :: qs) (i + 1) = q.args.length + offsetBefore qs i := by
  simp [offsetBefore]

theorem joinLoop_idx : ∀ (qs : List Query) (off : Nat),
    (joinLoop qs off).2 = (List.range qs.length).flatMap
      (fun i => (normIndices (qs.getD i nilQuery)).map
        (fun k => off + offsetBefore qs i + k)) := by
  intro qs
  induction qs with
  | nil => intro off; simp [joinLoop]
  | cons q qs ih =>
    intro off
    have hstep : (joinLoop (q :: qs) off).2
        = (normIndices q).map (fun k => off + k)
          ++ (joinLoop qs (off + q.args.length)).2 := by
      simp [joinLoop]
    rw [hstep, ih (off + q.args.length)]
    rw [List.length_cons, List.range_succ_eq_map, List.flatMap_cons, flatMap_map]
    congr 1
    apply flatMap_congr
    intro i _
    rw [offsetBefore_cons]
    apply List.map_congr_left
    intro k _
    omega

theorem joinLoop_idx_bound : ∀ (qs : List Query) (off : Nat),
    (∀ q ∈ qs, QueryWF q) →
    ∀ i ∈ (joinLoop qs off).2, i < off + (qs.flatMap (fun q => q.args)).length := by
  intro qs
  induction qs with
  | nil => intro off _ i hi; simp [joinLoop] at hi
  | cons q qs ih =>
    intro off hwf i hi
    have hstep : (joinLoop (q :: qs) off).2
        = (normIndices q).map (fun k => off + k)
          ++ (joinLoop qs (off + q.args.length)).2 := by
      simp [joinLoop]
    rw [hstep] at hi
    rcases List.mem_append.mp hi with hmem | hmem
    · obtain ⟨k, hk, rfl⟩ := List.mem_map.mp hmem
      have := hwf q (List.mem_cons_self q qs) k hk
      simp only [List.flatMap_cons, List.length_append]
      omega
    · have := ih (off + q.args.length)
        (fun q' hq' => hwf q' (List.mem_cons_of_mem _ hq')) i hmem
      simp only [List.flatMap_cons, List.length_append]
      omega

theorem joinLoop_idx_length : ∀ (qs : List Query) (off : Nat),
    (joinLoop qs off).2.length = (qs.map (fun q => (normIndices q).length)).sum := by
  intro qs
  induction qs with
  | nil => intro off; simp [joinLoop]
  | cons q qs ih =>
    intro off
    have hstep : (joinLoop (q :: qs) off).2
        = (normIndices q).map (fun k => off + k)
          ++ (joinLoop qs (off + q.args.length)).2 := by
      simp [joinLoop]
    rw [hstep]
    simp [ih]

/-- C6: `Join` concatenates the templates with `" " ++ sep ++ " "` between
elements, concatenates the argument arrays in order, carries no index list
when no input carries one, and on the explicit path accumulates each
input's normalized index list shifted by that input's running argument
offset. -/
theorem c6_join_concatenation (qs : List Query) (sep : List Char) :
    (Join qs sep).fmt
      = intercalateChars (' ' :: (sep ++ [' '])) (qs.map (fun q => q.fmt))
    ∧ (Join qs sep).args = qs.flatMap (fun q => q.args)
    ∧ ((∀ q ∈ qs, q.argIndices = none) → (Join qs sep).argIndices = none)
    ∧ ((∃ q ∈ qs, q.argIndices.isSome = true) →
        (joinLoop qs 0).2 = (List.range qs.length).flatMap
          (fun i => (normIndices (qs.getD i nilQuery)).map
            (fun k => offsetBefore qs i + k))
        ∧ (Join qs sep).argIndices
          = (if (joinLoop qs 0).2.isEmpty then none else some (joinLoop qs 0).2)) := by
  refine ⟨rfl, joinLoop_args qs 0, ?_, ?_⟩
  · intro hall
    have hany : qs.any (fun q => q.argIndices.isSome) = false := by
      rw [List.any_eq_false]
      intro q hq
      simp [hall q hq]
    unfold Join
    simp [hany]
  · intro hsome
    constructor
    · have h := joinLoop_idx qs 0
      simpa using h
    · have hany : qs.any (fun q => q.argIndices.isSome) = true := by
        rw [List.any_eq_true]
        exact hsome
      unfold Join
      simp [hany]

/-- Witness for C6 on `Join([a = %[1]s OR a = %[1]s (x), b = %s (y)], "AND")`. -/
theorem c6_join_concatenation_witness :
    (Join [⟨"a = %s OR a = %s".toList, [Arg.leaf (Leaf.str "x")], some [0, 0]⟩,
           ⟨"b = %s".toList, [Arg.leaf (Leaf.str "y")], none⟩] "AND".toList).fmt
      = "a = %s OR a = %s AND b = %s".toList
    ∧ (Join [⟨"a = %s OR a = %s".toList, [Arg.leaf (Leaf.str "x")], some [0, 0]⟩,
             ⟨"b = %s".toList, [Arg.leaf (Leaf.str "y")], none⟩] "AND".toList).args
      = [Arg.leaf (Leaf.str "x"), Arg.leaf (Leaf.str "y")]
    ∧ (Join [⟨"a = %s OR a = %s".toList, [Arg.leaf (Leaf.str "x")], some [0, 0]⟩,
             ⟨"b = %s".toList, [Arg.leaf (Leaf.str "y")], none⟩] "AND".toList).argIndices
      = some [0, 0, 1] := by
  have h := c6_join_concatenation
    [⟨"a = %s OR a = %s".toList, [Arg.leaf (Leaf.str "x")], some [0, 0]⟩,
     ⟨"b = %s".toList, [Arg.leaf (Leaf.str "y")], none⟩] "AND".toList
  refine ⟨?_, ?_, ?_⟩
  · rw [h.1]; rfl
  · rw [h.2.1]; rfl
  · have h4 := h.2.2.2 ⟨_, List.mem_cons_self _ _, by rfl⟩
    rw [h4.2]; rfl


/-- C7 (amended): every entry of a present `explicitIndices` is in
`[0, len(arguments))` (given well-formed nested inputs), and its length is
the sum of the per-directive contributions — one per leaf-resolving
directive, the normalized block length per nested-resolving directive; for
`Join`, one normalized block length per input.  (The scanned-placeholder
count of the stored template can differ: see the counterexample.) -/
theorem c7_index_entries_bounds_and_size :
    (∀ (format : List Char) (args : List Arg) (heap : Heap) (res : Query)
        (idxs : List Nat),
      HeapWF heap →
      Sprintf format args heap = .ok res →
      res.argIndices = some idxs →
      (∀ i ∈ idxs, i < res.args.length)
      ∧ idxs.length = ((resolveOf format).map (contrib args heap)).sum)
    ∧ (∀ (qs : List Query) (sep : List Char) (idxs : List Nat),
      (∀ q ∈ qs, QueryWF q) →
      (Join qs sep).argIndices = some idxs →
      (∀ i ∈ idxs, i < (Join qs sep).args.length)
      ∧ idxs.length = (qs.map (fun q => (normIndices q).length)).sum) := by
  constructor
  · intro format args heap res idxs hwf hsp hidx
    unfold Sprintf at hsp
    by_cases hpath : needsExplicitPath format args heap = true
    · rw [if_pos hpath] at hsp
      obtain ⟨st', hrun, hargs, hargIdx, _⟩ :=
        sprintfExplicit_ok_state format args heap res hsp
      rw [hargIdx] at hidx
      by_cases hemp : st'.argIndices.isEmpty = true
      · rw [if_pos hemp] at hidx
        cases hidx
      · rw [if_neg hemp] at hidx
        injection hidx with hidx
        subst hidx
        constructor
        · intro i hi
          rw [hargs]
          exact expRun_idxBound format args heap hwf (parseDirectives format)
            expInit st' (Inv_init args heap)
            (by intro i hi; simp [expInit] at hi) hrun i hi
        · have h := expRun_idxLen format args heap (parseDirectives format)
            expInit st' (Inv_init args heap) hrun
          simpa [expInit, resolveOf] using h
    · rw [if_neg hpath] at hsp
      injection hsp with hsp
      subst hsp
      simp at hidx
  · intro qs sep idxs hwf hidx
    have hidx2 : (if (qs.any fun q => q.argIndices.isSome) = true
          then (if (joinLoop qs 0).2.isEmpty = true then none
                else some (joinLoop qs 0).2) else none) = some idxs := hidx
    by_cases hexp : (qs.any fun q => q.argIndices.isSome) = true
    · rw [if_pos hexp] at hidx2
      by_cases hemp : (joinLoop qs 0).2.isEmpty = true
      · rw [if_pos hemp] at hidx2
        cases hidx2
      · rw [if_neg hemp] at hidx2
        injection hidx2 with hidx2
        subst hidx2
        constructor
        · intro i hi
          have hb := joinLoop_idx_bound qs 0 hwf i hi
          have hargs : (Join qs sep).args = qs.flatMap (fun q => q.args) :=
            joinLoop_args qs 0
          rw [hargs]
          omega
        · exact joinLoop_idx_length qs 0
    · rw [if_neg hexp] at hidx2
      cases hidx2

/-- Witness for C7 at `Sprintf("a = %[1]s AND b = %[1]s", q)` and
`Join` of an explicit and an implicit query. -/
theorem c7_index_entries_bounds_and_size_witness :
    ((∀ i ∈ [0, 0], i < 1)
      ∧ ([0, 0] : List Nat).length
        = ((resolveOf "a = %[1]s AND b = %[1]s".toList).map
            (contrib [Arg.qptr 0] [⟨"(%s)".toList, [Arg.leaf (Leaf.str "x")], none⟩])).sum)
    ∧ ((∀ i ∈ [0, 0, 1],
          i < (Join [⟨"a = %s OR a = %s".toList, [Arg.leaf (Leaf.str "x")], some [0, 0]⟩,
                     ⟨"b = %s".toList, [Arg.leaf (Leaf.str "y")], none⟩]
               "AND".toList).args.length)
      ∧ ([0, 0, 1] : List Nat).length
        = ([⟨"a = %s OR a = %s".toList, [Arg.leaf (Leaf.str "x")], some [0, 0]⟩,
            (⟨"b = %s".toList, [Arg.leaf (Leaf.str "y")], none⟩ : Query)].map
            (fun q => (normIndices q).length)).sum) := by
  constructor
  · exact c7_index_entries_bounds_and_size.1 "a = %[1]s AND b = %[1]s".toList
      [Arg.qptr 0] [⟨"(%s)".toList, [Arg.leaf (Leaf.str "x")], none⟩]
      ⟨"a = (%s) AND b = (%s)".toList, [Arg.leaf (Leaf.str "x")], some [0, 0]⟩
      [0, 0] (by unfold HeapWF QueryWF; decide) (by rfl) (by rfl)
  · exact c7_index_entries_bounds_and_size.2
      [⟨"a = %s OR a = %s".toList, [Arg.leaf (Leaf.str "x")], some [0, 0]⟩,
       ⟨"b = %s".toList, [Arg.leaf (Leaf.str "y")], none⟩]
      "AND".toList [0, 0, 1] (by unfold QueryWF; decide) (by rfl)

/-- Counterexample to C7 as stated: splicing a nested template that ends in
a dangling marker makes the marker merge with the following text into a new
scanned directive — the stored template has 2 non-literal placeholders but
`explicitIndices` has length 1. -/
theorem c7_counterexample_spliced_dangling_marker :
    Sprintf "%[1]s z".toList [Arg.qptr 0]
        [⟨"%s %".toList, [Arg.leaf (Leaf.str "v")], some [0]⟩]
      = .ok ⟨"%s % z".toList, [Arg.leaf (Leaf.str "v")], some [0]⟩
    ∧ ((parseDirectives "%s % z".toList).filter (fun d => !d.isLiteral)).length = 2
    ∧ ([0] : List Nat).length = 1
    ∧ (2 : Nat) ≠ 1 := by
  exact ⟨by rfl, by rfl, by rfl, by decide⟩

/-! ### Simple `%s`-gap templates: identity path and rendering (claims C8, C3) -/

theorem takeWhile_no_pct (c : List Char) (h : '%' ∉ c) :
    c.takeWhile (fun x => x ≠ '%') = c := by
  induction c with
  | nil => rfl
  | cons a l ih =>
    have ha : a ≠ '%' := by rintro rfl; exact h (List.mem_cons_self _ _)
    rw [List.takeWhile_cons_of_pos (by simp [ha]),
      ih (fun hm => h (List.mem_cons_of_mem _ hm))]

theorem dropWhile_no_pct (c : List Char) (h : '%' ∉ c) :
    c.dropWhile (fun x => x ≠ '%') = [] := by
  induction c with
  | nil => rfl
  | cons a l ih =>
    have ha : a ≠ '%' := by rintro rfl; exact h (List.mem_cons_self _ _)
    rw [List.dropWhile_cons_of_pos (by simp [ha]),
      ih (fun hm => h (List.mem_cons_of_mem _ hm))]

theorem takeWhile_append_pct (c l : List Char) (h : '%' ∉ c) :
    (c ++ '%' :: l).takeWhile (fun x => x ≠ '%') = c := by
  induction c with
  | nil =>
    rw [List.nil_append, List.takeWhile_cons_of_neg (by simp)]
  | cons a cc ih =>
    have ha : a ≠ '%' := by rintro rfl; exact h (List.mem_cons_self _ _)
    rw [List.cons_append, List.takeWhile_cons_of_pos (by simp [ha]),
      ih (fun hm => h (List.mem_cons_of_mem _ hm))]

theorem dropWhile_append_pct (c l : List Char) (h : '%' ∉ c) :
    (c ++ '%' :: l).dropWhile (fun x => x ≠ '%') = '%' :: l := by
  induction c with
  | nil =>
    rw [List.nil_append, List.dropWhile_cons_of_neg (by simp)]
  | cons a cc ih =>
    have ha : a ≠ '%' := by rintro rfl; exact h (List.mem_cons_self _ _)
    rw [List.cons_append, List.dropWhile_cons_of_pos (by simp [ha]),
      ih (fun hm => h (List.mem_cons_of_mem _ hm))]

theorem doublePercents_cons_ne (c : Char) (l : List Char) (h : c ≠ '%') :
    doublePercents (c :: l) = c :: doublePercents l := by
  cases l with
  | nil => rfl
  | cons c2 rest =>
    rw [doublePercents, if_neg (by intro hc; exact h hc.1)]

theorem doublePercents_no_pct (c : List Char) (h : '%' ∉ c) :
    doublePercents c = c := by
  induction c with
  | nil => rfl
  | cons a l ih =>
    have ha : a ≠ '%' := by rintro rfl; exact h (List.mem_cons_self _ _)
    rw [doublePercents_cons_ne a l ha, ih (fun hm => h (List.mem_cons_of_mem _ hm))]

theorem doublePercents_append_no_pct (c l : List Char) (h : '%' ∉ c) :
    doublePercents (c ++ l) = c ++ doublePercents l := by
  induction c with
  | nil => rfl
  | cons a cc ih =>
    have ha : a ≠ '%' := by rintro rfl; exact h (List.mem_cons_self _ _)
    rw [List.cons_append, doublePercents_cons_ne a _ ha,
      ih (fun hm => h (List.mem_cons_of_mem _ hm)), List.cons_append]

theorem doublePercents_segFormat (chunks : List (List Char))
    (h : ∀ c ∈ chunks, '%' ∉ c) :
    doublePercents (segFormat chunks) = segFormat chunks := by
  induction chunks with
  | nil => rfl
  | cons c rest ih =>
    cases rest with
    | nil => exact doublePercents_no_pct c (h c (List.mem_cons_self _ _))
    | cons c2 cs =>
      show doublePercents (c ++ '%' :: 's' :: segFormat (c2 :: cs))
        = c ++ '%' :: 's' :: segFormat (c2 :: cs)
      rw [doublePercents_append_no_pct c _ (h c (List.mem_cons_self _ _))]
      rw [doublePercents, if_neg (by intro hc; exact absurd hc.2 (by decide))]
      rw [doublePercents_cons_ne 's' _ (by decide)]
      rw [ih (fun c' hc' => h c' (List.mem_cons_of_mem _ hc'))]

theorem goLoop_end (vals : List (List Char)) (fuel : Nat) (l : List Char)
    (argNum : Nat) (reordered : Bool) (h : l.dropWhile (fun x => x ≠ '%') = []) :
    goLoop vals (fuel + 1) l argNum reordered
      = l.takeWhile (fun x => x ≠ '%') ++ goExtra vals argNum reordered := by
  rw [goLoop, h]

theorem goLoop_fast (vals : List (List Char)) (fuel : Nat) (l r0 r2 : List Char)
    (c : Char) (argNum : Nat) (reordered : Bool)
    (h : l.dropWhile (fun x => x ≠ '%') = '%' :: r0)
    (hr : r0.dropWhile isGoFlag = c :: r2)
    (hc : ('a' ≤ c ∧ c ≤ 'z') ∧ argNum < vals.length) :
    goLoop vals (fuel + 1) l argNum reordered
      = l.takeWhile (fun x => x ≠ '%') ++ printIgnoreFormat c (vals.getD argNum [])
        ++ goLoop vals fuel r2 (argNum + 1) reordered := by
  simp only [goLoop, h, hr]
  rw [if_pos hc]

theorem goLoop_seg :
    ∀ (chunks : List (List Char)) (vals : List (List Char)) (argNum fuel : Nat),
    (∀ c ∈ chunks, '%' ∉ c) →
    chunks ≠ [] →
    argNum + chunks.length = vals.length + 1 →
    (segFormat chunks).length < fuel →
    goLoop vals fuel (segFormat chunks) argNum false
      = interleave chunks (vals.drop argNum) := by
  intro chunks
  induction chunks with
  | nil => intro vals argNum fuel _ hne _ _; exact absurd rfl hne
  | cons c rest ih =>
    intro vals argNum fuel hpct hne hlen hfuel
    obtain ⟨fuel', rfl⟩ : ∃ f', fuel = f' + 1 := ⟨fuel - 1, by omega⟩
    cases rest with
    | nil =>
      have hc : '%' ∉ c := hpct c (List.mem_cons_self _ _)
      have hend : (segFormat [c]).dropWhile (fun x => x ≠ '%') = [] :=
        dropWhile_no_pct c hc
      rw [goLoop_end vals fuel' (segFormat [c]) argNum false hend]
      have ht : (segFormat [c]).takeWhile (fun x => x ≠ '%') = c :=
        takeWhile_no_pct c hc
      rw [ht]
      have ha : argNum = vals.length := by
        simp only [List.length_cons, List.length_nil] at hlen
        omega
      have hextra : goExtra vals argNum false = [] := by
        rw [goExtra, if_neg]
        intro hcon
        omega
      rw [hextra]
      show c ++ [] = interleave [c] (vals.drop argNum)
      simp [interleave]
    | cons c2 cs =>
      have hc : '%' ∉ c := hpct c (List.mem_cons_self _ _)
      have hseg : segFormat (c :: c2 :: cs) = c ++ '%' :: 's' :: segFormat (c2 :: cs) := rfl
      have hdrop : (segFormat (c :: c2 :: cs)).dropWhile (fun x => x ≠ '%')
          = '%' :: 's' :: segFormat (c2 :: cs) := by
        rw [hseg]
        exact dropWhile_append_pct c _ hc
      have hr : ('s' :: segFormat (c2 :: cs)).dropWhile isGoFlag
          = 's' :: segFormat (c2 :: cs) := by
        rw [List.dropWhile_cons_of_neg]
        simp [isGoFlag]
      have hnum : argNum < vals.length := by
        simp only [List.length_cons] at hlen
        omega
      rw [goLoop_fast vals fuel' (segFormat (c :: c2 :: cs)) ('s' :: segFormat (c2 :: cs))
        (segFormat (c2 :: cs)) 's' argNum false hdrop hr ⟨⟨by decide, by decide⟩, hnum⟩]
      have ht : (segFormat (c :: c2 :: cs)).takeWhile (fun x => x ≠ '%') = c := by
        rw [hseg]
        exact takeWhile_append_pct c _ hc
      rw [ht]
      have hpr : printIgnoreFormat 's' (vals.getD argNum []) = vals.getD argNum [] := by
        rw [printIgnoreFormat, if_neg (by decide), if_neg (by decide)]
      rw [hpr]
      have hfuel' : (segFormat (c2 :: cs)).length < fuel' := by
        rw [hseg] at hfuel
        simp only [List.length_append, List.length_cons] at hfuel
        omega
      rw [ih vals (argNum + 1) fuel' (fun c' hc' => hpct c' (List.mem_cons_of_mem _ hc'))
        (by simp) (by simp only [List.length_cons] at hlen ⊢; omega) hfuel']
      have hdropv : vals.drop argNum = vals.getD argNum [] :: vals.drop (argNum + 1) := by
        rw [List.drop_eq_getElem_cons hnum, List.getD_eq_getElem vals [] hnum]
      rw [hdropv]
      rfl

theorem interleave_replicate_pct :
    ∀ (chunks : List (List Char)) (n : Nat), chunks.length = n + 1 →
    interleave chunks (List.replicate n ('%' :: 's' :: [])) = segFormat chunks := by
  intro chunks
  induction chunks with
  | nil => intro n h; simp at h
  | cons c rest ih =>
    intro n h
    cases rest with
    | nil =>
      obtain rfl : n = 0 := by
        simp only [List.length_cons, List.length_nil] at h
        omega
      rfl
    | cons c2 cs =>
      obtain ⟨m, rfl⟩ : ∃ m, n = m + 1 := by
        simp only [List.length_cons] at h
        exact ⟨n - 1, by omega⟩
      rw [List.replicate_succ]
      show c ++ ('%' :: 's' :: []) ++ interleave (c2 :: cs) (List.replicate m _)
        = segFormat (c :: c2 :: cs)
      rw [ih m (by simpa using h)]
      show c ++ ('%' :: 's' :: []) ++ segFormat (c2 :: cs)
        = c ++ '%' :: 's' :: segFormat (c2 :: cs)
      simp

theorem identityFmt_all_leaf (heap : Heap) :
    ∀ (args : List Arg), (∀ a ∈ args, ∃ v, a = Arg.leaf v) →
    args.map (identityFmtArg heap) = List.replicate args.length ('%' :: 's' :: []) := by
  intro args
  induction args with
  | nil => intro _; rfl
  | cons a l ih =>
    intro h
    obtain ⟨v, rfl⟩ := h a (List.mem_cons_self _ _)
    rw [List.map_cons, List.length_cons, List.replicate_succ,
      ih (fun a' ha' => h a' (List.mem_cons_of_mem _ ha'))]
    rfl

theorem flatten_all_leaf (heap : Heap) :
    ∀ (args : List Arg), (∀ a ∈ args, ∃ v, a = Arg.leaf v) →
    args.flatMap (flattenArg heap) = args := by
  intro args
  induction args with
  | nil => intro _; rfl
  | cons a l ih =>
    intro h
    obtain ⟨v, rfl⟩ := h a (List.mem_cons_self _ _)
    rw [List.flatMap_cons, ih (fun a' ha' => h a' (List.mem_cons_of_mem _ ha'))]
    rfl

theorem scanVerb_fst_no_bracket (format : List Char) (i1 : Nat) (hb : '[' ∉ format) :
    (scanVerb format i1).1 = false := by
  have hne : format.get? i1 ≠ some '[' := by
    intro hc
    exact hb (List.get?_mem hc)
  simp only [scanVerb]
  rw [if_neg hne]

theorem parseLoop_no_bracket (format : List Char) (hb : '[' ∉ format) :
    ∀ (fuel i : Nat) (d : Directive), d ∈ parseLoop format fuel i →
      d.hasIndex = false := by
  intro fuel
  induction fuel with
  | zero => intro i d h; simp [parseLoop] at h
  | succ fuel ih =>
    intro i d h
    rw [parseLoop] at h
    split at h
    · simp at h
    · split at h
      · exact ih _ d h
      · split at h
        · simp at h
        · split at h
          · rcases List.mem_cons.mp h with rfl | h'
            · rfl
            · exact ih _ d h'
          · split at h
            · rcases List.mem_cons.mp h with rfl | h'
              · exact scanVerb_fst_no_bracket format (i + 1) hb
              · exact ih _ d h'
            · simp at h

theorem needsExplicitPath_false_of (format : List Char) (args : List Arg) (heap : Heap)
    (hleaf : ∀ a ∈ args, ∃ v, a = Arg.leaf v) (hb : '[' ∉ format) :
    needsExplicitPath format args heap = false := by
  unfold needsExplicitPath
  rw [Bool.or_eq_false_iff]
  constructor
  · rw [List.any_eq_false]
    intro a ha
    obtain ⟨v, rfl⟩ := hleaf a ha
    simp
  · rw [List.any_eq_false]
    intro d hd
    simp [parseLoop_no_bracket format hb _ _ d hd]

theorem mem_segFormat :
    ∀ (chunks : List (List Char)) (x : Char), x ∈ segFormat chunks →
      (∃ c ∈ chunks, x ∈ c) ∨ x = '%' ∨ x = 's' := by
  intro chunks
  induction chunks with
  | nil => intro x h; simp [segFormat] at h
  | cons c rest ih =>
    intro x h
    cases rest with
    | nil => exact Or.inl ⟨c, List.mem_cons_self _ _, h⟩
    | cons c2 cs =>
      rcases List.mem_append.mp h with h1 | h1
      · exact Or.inl ⟨c, List.mem_cons_self _ _, h1⟩
      · rcases List.mem_cons.mp h1 with rfl | h2
        · exact Or.inr (Or.inl rfl)
        · rcases List.mem_cons.mp h2 with rfl | h3
          · exact Or.inr (Or.inr rfl)
          · rcases ih x h3 with ⟨c', hc', hx⟩ | hx
            · exact Or.inl ⟨c', List.mem_cons_of_mem _ hc', hx⟩
            · exact Or.inr hx

theorem sprintf_identity (format : List Char) (args : List Arg) (heap : Heap)
    (hpath : needsExplicitPath format args heap = false) :
    Sprintf format args heap
      = .ok ⟨goSprintf (doublePercents format) (args.map (identityFmtArg heap)),
             args.flatMap (flattenArg heap), none⟩ := by
  unfold Sprintf
  rw [if_neg (by simp [hpath])]

/-- C8: a template of `%`-free chunks joined by `%s` gaps with matching
all-leaf arguments takes the identity path, stores the template and the
arguments verbatim, and renders with the numbered dialect by substituting
the gaps with `$1, $2, …` in strict ascending source order; the final
conjuncts check Example 1 (`%d` included) concretely. -/
theorem c8_sequential_numbered_rendering (chunks : List (List Char)) (args : List Arg)
    (heap : Heap)
    (hch : ∀ c ∈ chunks, '%' ∉ c ∧ '[' ∉ c)
    (hne : chunks ≠ [])
    (hleaf : ∀ a ∈ args, ∃ v, a = Arg.leaf v)
    (hlen : args.length + 1 = chunks.length) :
    Sprintf (segFormat chunks) args heap = .ok ⟨segFormat chunks, args, none⟩
    ∧ Query.render ⟨segFormat chunks, args, none⟩ postgresBindVar
      = interleave chunks ((List.range args.length).map postgresBindVar)
    ∧ Sprintf "a = %s AND b = %d".toList
        [Arg.leaf (Leaf.str "foo"), Arg.leaf (Leaf.int 1)] []
      = .ok ⟨"a = %s AND b = %s".toList,
             [Arg.leaf (Leaf.str "foo"), Arg.leaf (Leaf.int 1)], none⟩
    ∧ Query.render ⟨"a = %s AND b = %s".toList,
          [Arg.leaf (Leaf.str "foo"), Arg.leaf (Leaf.int 1)], none⟩ postgresBindVar
      = "a = $1 AND b = $2".toList := by
  have hb : '[' ∉ segFormat chunks := by
    intro hm
    rcases mem_segFormat chunks '[' hm with ⟨c, hc, hx⟩ | hx | hx
    · exact (hch c hc).2 hx
    · cases hx
    · cases hx
  have hpct : ∀ c ∈ chunks, '%' ∉ c := fun c hc => (hch c hc).1
  have hpath := needsExplicitPath_false_of (segFormat chunks) args heap hleaf hb
  refine ⟨?_, ?_, by rfl, by rfl⟩
  · rw [sprintf_identity (segFormat chunks) args heap hpath]
    have hfmt : goSprintf (doublePercents (segFormat chunks))
        (args.map (identityFmtArg heap)) = segFormat chunks := by
      rw [doublePercents_segFormat chunks hpct, identityFmt_all_leaf heap args hleaf]
      unfold goSprintf
      rw [goLoop_seg chunks (List.replicate args.length ('%' :: 's' :: [])) 0
        ((segFormat chunks).length + 1) hpct hne
        (by simp; omega) (by omega)]
      rw [List.drop_zero]
      exact interleave_replicate_pct chunks args.length hlen.symm
    rw [hfmt, flatten_all_leaf heap args hleaf]
  · show goSprintf (segFormat chunks)
        ((List.range args.length).map postgresBindVar) = _
    unfold goSprintf
    rw [goLoop_seg chunks ((List.range args.length).map postgresBindVar) 0
      ((segFormat chunks).length + 1) hpct hne (by simp; omega) (by omega)]
    rw [List.drop_zero]

/-- Witness for C8 with chunks `["a = ", " AND b = ", ""]` and two leaf
arguments. -/
theorem c8_sequential_numbered_rendering_witness :
    Sprintf (segFormat ["a = ".toList, " AND b = ".toList, []])
        [Arg.leaf (Leaf.str "foo"), Arg.leaf (Leaf.int 1)] []
      = .ok ⟨segFormat ["a = ".toList, " AND b = ".toList, []],
             [Arg.leaf (Leaf.str "foo"), Arg.leaf (Leaf.int 1)], none⟩
    ∧ Query.render ⟨segFormat ["a = ".toList, " AND b = ".toList, []],
          [Arg.leaf (Leaf.str "foo"), Arg.leaf (Leaf.int 1)], none⟩ postgresBindVar
      = interleave ["a = ".toList, " AND b = ".toList, []]
          ((List.range 2).map postgresBindVar)
    ∧ Sprintf "a = %s AND b = %d".toList
        [Arg.leaf (Leaf.str "foo"), Arg.leaf (Leaf.int 1)] []
      = .ok ⟨"a = %s AND b = %s".toList,
             [Arg.leaf (Leaf.str "foo"), Arg.leaf (Leaf.int 1)], none⟩
    ∧ Query.render ⟨"a = %s AND b = %s".toList,
          [Arg.leaf (Leaf.str "foo"), Arg.leaf (Leaf.int 1)], none⟩ postgresBindVar
      = "a = $1 AND b = $2".toList :=
  c8_sequential_numbered_rendering ["a = ".toList, " AND b = ".toList, []]
    [Arg.leaf (Leaf.str "foo"), Arg.leaf (Leaf.int 1)] []
    (by decide) (by decide)
    (by
      intro a ha
      rcases List.mem_cons.mp ha with rfl | ha
      · exact ⟨_, rfl⟩
      rcases List.mem_cons.mp ha with rfl | ha
      · exact ⟨_, rfl⟩
      simp at ha)
    (by decide)

/-- Rendering the stored template `%s %!(NOVERB)` (what composing `%s %`
stores) under any uniform slot shift: the first placeholder takes the
shifted bind variable and the spliced error text renders the same way for
every shift. -/
theorem render_nested_noverb_shifted (k : Nat) :
    Query.render ⟨"%s %!(NOVERB)".toList, [Arg.leaf (Leaf.str "v")], none⟩
      (fun i => postgresBindVar (k + i))
    = postgresBindVar k ++ " %!!(MISSING)(NOVERB)".toList := by
  rfl

/-- C3 (amended): on the identity path a previously composed nested query
argument has its arguments flattened into the outer array as one
contiguous block, in the nested value's own order, and Example 3 renders
(with the spec-modelled numbered dialect) to
`WHERE x = (SELECT y FROM t WHERE z = $1)` with arguments `[5]`, its
rendered text containing the nested value's own rendering as a contiguous
block.  The claim's universal rendering-contiguity conjunct does not hold
in general: spliced nested template text can merge with the outer
template into new directives, so the nested region of the outer rendering
need not equal the nested value's own rendering modulo slot shift (see
the counterexample). -/
theorem c3_nested_flattening (format : List Char) (args X Y : List Arg) (heap : Heap)
    (p : Nat)
    (hpath : needsExplicitPath format args heap = false)
    (hsplit : args = X ++ Arg.qptr p :: Y) :
    (∃ res, Sprintf format args heap = .ok res
      ∧ res.args = X.flatMap (flattenArg heap) ++ (deref heap p).args
          ++ Y.flatMap (flattenArg heap))
    ∧ Sprintf "SELECT y FROM t WHERE z = %d".toList [Arg.leaf (Leaf.int 5)] []
      = .ok ⟨"SELECT y FROM t WHERE z = %s".toList, [Arg.leaf (Leaf.int 5)], none⟩
    ∧ Sprintf "WHERE x = (%s)".toList [Arg.qptr 0]
        [⟨"SELECT y FROM t WHERE z = %s".toList, [Arg.leaf (Leaf.int 5)], none⟩]
      = .ok ⟨"WHERE x = (SELECT y FROM t WHERE z = %s)".toList,
             [Arg.leaf (Leaf.int 5)], none⟩
    ∧ Query.render ⟨"WHERE x = (SELECT y FROM t WHERE z = %s)".toList,
          [Arg.leaf (Leaf.int 5)], none⟩ postgresBindVar
      = "WHERE x = (SELECT y FROM t WHERE z = $1)".toList
    ∧ Query.render ⟨"WHERE x = (SELECT y FROM t WHERE z = %s)".toList,
          [Arg.leaf (Leaf.int 5)], none⟩ postgresBindVar
      = "WHERE x = (".toList
        ++ Query.render ⟨"SELECT y FROM t WHERE z = %s".toList,
             [Arg.leaf (Leaf.int 5)], none⟩ postgresBindVar
        ++ ")".toList
    ∧ Query.Args ⟨"WHERE x = (SELECT y FROM t WHERE z = %s)".toList,
          [Arg.leaf (Leaf.int 5)], none⟩ = [Arg.leaf (Leaf.int 5)] := by
  refine ⟨?_, by rfl, by rfl, by rfl, by rfl, by rfl⟩
  refine ⟨_, sprintf_identity format args heap hpath, ?_⟩
  show args.flatMap (flattenArg heap) = _
  rw [hsplit, List.flatMap_append, List.flatMap_cons, ← List.append_assoc]
  rfl

/-- Counterexample to C3 as stated: `inner = Sprintf("%s %", "v")` stores
template `%s %!(NOVERB)`; splicing it into `Sprintf("(%s) AND b = %s",
inner, "w")` makes the spliced `%!` absorb the outer's next bind variable
at render time, so the outer renders to
`($1 $2(NOVERB)) AND b = %!s(MISSING)` while the inner alone renders to
`$1 %!!(MISSING)(NOVERB)`: no contiguous region of the outer rendering
equals the inner's rendering under any uniform slot-number shift (the
shift-invariant tail has two `!` characters where the outer rendering has
one). -/
theorem c3_counterexample_spliced_directive_breaks_contiguity :
    Sprintf "%s %".toList [Arg.leaf (Leaf.str "v")] []
      = .ok ⟨"%s %!(NOVERB)".toList, [Arg.leaf (Leaf.str "v")], none⟩
    ∧ Sprintf "(%s) AND b = %s".toList [Arg.qptr 0, Arg.leaf (Leaf.str "w")]
        [⟨"%s %!(NOVERB)".toList, [Arg.leaf (Leaf.str "v")], none⟩]
      = .ok ⟨"(%s %!(NOVERB)) AND b = %s".toList,
             [Arg.leaf (Leaf.str "v"), Arg.leaf (Leaf.str "w")], none⟩
    ∧ Query.render ⟨"%s %!(NOVERB)".toList, [Arg.leaf (Leaf.str "v")], none⟩
        postgresBindVar
      = "$1 %!!(MISSING)(NOVERB)".toList
    ∧ Query.render ⟨"(%s %!(NOVERB)) AND b = %s".toList,
          [Arg.leaf (Leaf.str "v"), Arg.leaf (Leaf.str "w")], none⟩ postgresBindVar
      = "($1 $2(NOVERB)) AND b = %!s(MISSING)".toList
    ∧ ∀ k : Nat, ¬ ∃ s t : List Char,
        Query.render ⟨"(%s %!(NOVERB)) AND b = %s".toList,
            [Arg.leaf (Leaf.str "v"), Arg.leaf (Leaf.str "w")], none⟩ postgresBindVar
          = s ++ Query.render ⟨"%s %!(NOVERB)".toList,
              [Arg.leaf (Leaf.str "v")], none⟩ (fun i => postgresBindVar (k + i)) ++ t := by
  refine ⟨by rfl, by rfl, by rfl, by rfl, ?_⟩
  rintro k ⟨s, t, heq⟩
  rw [render_nested_noverb_shifted k] at heq
  have hcount := congrArg (List.count '!') heq
  simp only [List.count_append] at hcount
  have h1 : List.count '!' (Query.render ⟨"(%s %!(NOVERB)) AND b = %s".toList,
      [Arg.leaf (Leaf.str "v"), Arg.leaf (Leaf.str "w")], none⟩ postgresBindVar)
      = 1 := by decide
  have h2 : List.count '!' " %!!(MISSING)(NOVERB)".toList = 2 := by decide
  rw [h1, h2] at hcount
  omega

/-- Witness for C3 at Example 3 itself. -/
theorem c3_nested_flattening_witness :
    (∃ res, Sprintf "WHERE x = (%s)".toList [Arg.qptr 0]
        [⟨"SELECT y FROM t WHERE z = %s".toList, [Arg.leaf (Leaf.int 5)], none⟩]
        = .ok res
      ∧ res.args = ([] : List Arg).flatMap
            (flattenArg [⟨"SELECT y FROM t WHERE z = %s".toList,
              [Arg.leaf (Leaf.int 5)], none⟩])
          ++ (deref [⟨"SELECT y FROM t WHERE z = %s".toList,
              [Arg.leaf (Leaf.int 5)], none⟩] 0).args
          ++ ([] : List Arg).flatMap
            (flattenArg [⟨"SELECT y FROM t WHERE z = %s".toList,
              [Arg.leaf (Leaf.int 5)], none⟩]))
    ∧ Query.render ⟨"WHERE x = (SELECT y FROM t WHERE z = %s)".toList,
          [Arg.leaf (Leaf.int 5)], none⟩ postgresBindVar
      = "WHERE x = (SELECT y FROM t WHERE z = $1)".toList := by
  have h := c3_nested_flattening "WHERE x = (%s)".toList [Arg.qptr 0] [] []
    [⟨"SELECT y FROM t WHERE z = %s".toList, [Arg.leaf (Leaf.int 5)], none⟩] 0
    (by rfl) (by rfl)
  exact ⟨h.1, h.2.2.2.1⟩

/-! ### Dangling trailing `%` (claim C9) -/

theorem parseLoop_trailing_pct (format : List Char) (fuel i : Nat)
    (h : format.get? i = some '%') (hlast : format.length ≤ i + 1) :
    parseLoop format (fuel + 1) i = [] := by
  rw [parseLoop, h]
  show (if ('%' : Char) ≠ '%' then parseLoop format fuel (i + 1)
    else if format.length ≤ i + 1 then []
    else if format.get? (i + 1) = some '%' then
      ⟨i, i + 2, false, 0, true⟩ :: parseLoop format fuel (i + 2)
    else if (scanVerb format (i + 1)).2.2 < format.length then
      ⟨i, (scanVerb format (i + 1)).2.2 + 1, (scanVerb format (i + 1)).1,
        (scanVerb format (i + 1)).2.1, false⟩
        :: parseLoop format fuel ((scanVerb format (i + 1)).2.2 + 1)
    else []) = []
  rw [if_neg (by simp), if_pos hlast]

/-- C9 (amended): the scanner does drop a dangling trailing `%` silently —
upon reaching a `%` that is the last character it emits no directive and
no error — and the explicit path stores the template verbatim, but
composition and rendering do NOT proceed as if the marker produced
nothing: rendering passes the stored template through the `fmt`-style
formatter, which turns the dangling marker into `%!(NOVERB)` error text
(rendering with the spec-modelled numbered dialect). -/
theorem c9_dangling_marker_scanner_silent_but_render_error_text
    (format : List Char) (fuel i : Nat)
    (h : format.get? i = some '%') (hlast : format.length ≤ i + 1) :
    parseLoop format (fuel + 1) i = []
    ∧ Sprintf "a = %[1]s AND %".toList [Arg.leaf (Leaf.str "x")] []
      = .ok ⟨"a = %s AND %".toList, [Arg.leaf (Leaf.str "x")], some [0]⟩
    ∧ Query.render ⟨"a = %s AND %".toList, [Arg.leaf (Leaf.str "x")], some [0]⟩
        postgresBindVar
      = "a = $1 AND %!(NOVERB)".toList :=
  ⟨parseLoop_trailing_pct format fuel i h hlast, by rfl, by rfl⟩

/-- Witness for C9 at the one-character format `%`. -/
theorem c9_dangling_marker_witness :
    parseLoop "%".toList 1 0 = []
    ∧ Sprintf "a = %[1]s AND %".toList [Arg.leaf (Leaf.str "x")] []
      = .ok ⟨"a = %s AND %".toList, [Arg.leaf (Leaf.str "x")], some [0]⟩
    ∧ Query.render ⟨"a = %s AND %".toList, [Arg.leaf (Leaf.str "x")], some [0]⟩
        postgresBindVar
      = "a = $1 AND %!(NOVERB)".toList :=
  c9_dangling_marker_scanner_silent_but_render_error_text
    "%".toList 0 0 (by rfl) (by decide)

/-- Counterexample to C9 as stated: on the identity path a dangling
trailing `%` is not dropped without error text — `fmt.Sprintf` already
embeds `%!(NOVERB)` into the stored template at composition time, and
rendering shows formatter error text rather than behaving as if the
marker produced nothing. -/
theorem c9_counterexample_identity_path_error_text :
    Sprintf "a = %s AND %".toList [Arg.leaf (Leaf.str "x")] []
      = .ok ⟨"a = %s AND %!(NOVERB)".toList, [Arg.leaf (Leaf.str "x")], none⟩
    ∧ Query.render ⟨"a = %s AND %!(NOVERB)".toList,
          [Arg.leaf (Leaf.str "x")], none⟩ postgresBindVar
      = "a = $1 AND %!!(MISSING)(NOVERB)".toList
    ∧ "a = %s AND %!(NOVERB)".toList ≠ "a = %s AND %".toList :=
  ⟨by rfl, by rfl, by decide⟩

/-- Witness for C4 on `%[2]s %s %s` (directives as scanned from it) and an
all-implicit pair. -/
theorem c4_index_resolution_witness :
    resolveFrom 0 (parseDirectives "%[2]s %s %s".toList) = [1, 2, 3]
    ∧ resolveFrom 0 (parseDirectives "%s %s".toList) = [0, 1] := by
  have h := c4_index_resolution 0 2 ⟨0, 5, true, 2, false⟩
    [⟨6, 8, false, 0, false⟩, ⟨9, 11, false, 0, false⟩]
    [⟨0, 2, false, 0, false⟩, ⟨3, 5, false, 0, false⟩]
    (by rfl) (by rfl) (by rfl) (by decide) (by decide)
  constructor
  · have hp : parseDirectives "%[2]s %s %s".toList
      = [⟨0, 5, true, 2, false⟩, ⟨6, 8, false, 0, false⟩, ⟨9, 11, false, 0, false⟩] := by rfl
    rw [hp, h.1]
    decide
  · have hp : parseDirectives "%s %s".toList
      = [⟨0, 2, false, 0, false⟩, ⟨3, 5, false, 0, false⟩] := by rfl
    rw [hp, h.2]
    decide

end Sqlf
